import Mathlib

/-!
Verification of the entry-block argument lowering and capture-binding
subsystem (SILGenProlog.cpp): a shallow embedding of prologue emission,
ownership-convention resolution, tuple destructuring/reassembly, indirect
result synthesis and capture binding, with theorems about the documented
properties.

State (entry-block arguments, cleanup stack, variable-location table,
emitted instructions) is passed explicitly.  External helpers that are not
part of the source file (managed-value cleanup registration, retains,
copies, temporary allocation) are modelled from the specification and are
marked as such in their doc comments.
-/

namespace SILGen

/-- Parameter passing conventions of lowered SIL function parameters. -/
inductive ParameterConvention where
  | Direct_Guaranteed
  | Indirect_In_Guaranteed
  | Direct_Unowned
  | Indirect_Inout
  | Indirect_InoutAliasable
  | Direct_Owned
  | Indirect_In
  | Indirect_In_Constant
  deriving DecidableEq, Repr

/-- One lowered parameter descriptor (SILParameterInfo): its convention. -/
structure SILParameterInfo where
  convention : ParameterConvention
  deriving DecidableEq, Repr

/-- Facts about one scalar (non-tuple) leaf type, as answered by the
external type-layout authority and the AST:
`loadable` (register-passable lowering), `trivial` (no ownership),
`isBlock` (a possibly optional-wrapped ObjC block function type),
`materializable` (false for inout-carrying types),
`returnedIndirectly` (must be returned through memory),
`builtinValueBuffer` (the non-copyable low-level buffer marker type),
`selfMetatypeMismatch` (a dynamic-Self metatype whose lowered
representation differs from the incoming one). -/
structure ScalarInfo where
  loadable : Bool := true
  trivial : Bool := false
  isBlock : Bool := false
  materializable : Bool := true
  returnedIndirectly : Bool := false
  builtinValueBuffer : Bool := false
  selfMetatypeMismatch : Bool := false
  deriving DecidableEq, Repr

/-- A declared (canonical) type: a scalar leaf or a tuple of types. -/
inductive Ty where
  | scalar (info : ScalarInfo)
  | tuple (elts : List Ty)

mutual
/-- Flattened scalar leaves of a type, in depth-first left-to-right order. -/
def Ty.leaves : Ty → List ScalarInfo
  | .scalar info => [info]
  | .tuple elts => Ty.leavesList elts
termination_by structural t => t

/-- Concatenated leaves of a list of types, left to right. -/
def Ty.leavesList : List Ty → List ScalarInfo
  | [] => []
  | t :: ts => t.leaves ++ Ty.leavesList ts
termination_by structural ts => ts
end

mutual
/-- Loadability of a type: a tuple is loadable iff all elements are. -/
def Ty.loadable : Ty → Bool
  | .scalar info => info.loadable
  | .tuple elts => Ty.loadableList elts
termination_by structural t => t

/-- Conjunction of loadability over a list of types. -/
def Ty.loadableList : List Ty → Bool
  | [] => true
  | t :: ts => t.loadable && Ty.loadableList ts
termination_by structural ts => ts
end

mutual
/-- Triviality of a type: a tuple is trivial iff all elements are. -/
def Ty.trivial : Ty → Bool
  | .scalar info => info.trivial
  | .tuple elts => Ty.trivialList elts
termination_by structural t => t

/-- Conjunction of triviality over a list of types. -/
def Ty.trivialList : List Ty → Bool
  | [] => true
  | t :: ts => t.trivial && Ty.trivialList ts
termination_by structural ts => ts
end

mutual
/-- Materializability: a tuple is materializable iff all elements are. -/
def Ty.materializable : Ty → Bool
  | .scalar info => info.materializable
  | .tuple elts => Ty.materializableList elts
termination_by structural t => t

/-- Conjunction of materializability over a list of types. -/
def Ty.materializableList : List Ty → Bool
  | [] => true
  | t :: ts => t.materializable && Ty.materializableList ts
termination_by structural ts => ts
end

/-- Whether a type is the non-copyable low-level buffer marker type. -/
def Ty.isBuiltinValueBuffer : Ty → Bool
  | .scalar info => info.builtinValueBuffer
  | .tuple _ => false

/-- Whether a type is a dynamic-Self metatype whose lowered representation
differs from the raw incoming representation. -/
def Ty.needsSelfBitcast : Ty → Bool
  | .scalar info => info.selfMetatypeMismatch
  | .tuple _ => false

/-- SIL values produced during prologue emission, identified by how they
were produced. -/
inductive SILValue where
  | arg (idx : Nat)
  | copyValue (v : SILValue)
  | copyBlock (v : SILValue)
  | tuple (elts : List SILValue)
  | tempAlloc (id : Nat)
  | tupleElementAddr (base : SILValue) (i : Nat)
  | projectBox (box : SILValue)
  | bitcast (v : SILValue)
  | undef

/-- Emitted IR operations, recorded in order.  Entry-block argument
materialization is recorded as a `newArg` event so that the relative
order of argument creation and other emission is observable. -/
inductive Instr where
  | newArg (ty : Ty) (decl : Option Nat)
  | retainValue (v : SILValue)
  | copyValueInstr (v : SILValue)
  | copyBlockInstr (v : SILValue)
  | tupleInstr (v : SILValue)
  | allocStack (id : Nat)
  | storeInstr (src dst : SILValue)
  | copyAddrTake (src dst : SILValue)
  | copyAddrCopy (src dst : SILValue)
  | destroyValue (v : SILValue)
  | debugValue (v : SILValue) (argNo : Nat)
  | debugErrorValue (argNo : Nat)
  | projectBoxInstr (box : SILValue)
  | bitcastInstr (v : SILValue)

/-- One entry-block argument: its type and the declaration it was
created for, if any. -/
structure EntryArg where
  ty : Ty
  decl : Option Nat

/-- A registered cleanup: its identifier, the value it releases, and
whether it is still active (not yet forwarded or fired). -/
structure CleanupRec where
  id : Nat
  value : SILValue
  active : Bool

/-- The IR location a variable is bound to: a value (or address), plus the
owning box when the storage lives in a heap cell. -/
structure VarLoc where
  value : SILValue
  box : Option SILValue := none

/-- Module-level configuration consulted by prologue emission. -/
structure SGConfig where
  useLoweredAddresses : Bool := true
  enableGuaranteedClosureContexts : Bool := false
  deriving DecidableEq, Repr

/-- State of the function under construction: entry-block arguments in
creation order, the cleanup stack, counters for fresh cleanups and
temporaries, the emitted instruction trace, the variable-location table,
and a ghost trace `classified` recording each (leaf, convention) pair fed
to the ownership-convention resolver, in resolution order. -/
structure SGState where
  entryArgs : List EntryArg := []
  cleanups : List CleanupRec := []
  nextCleanup : Nat := 0
  nextTemp : Nat := 0
  instrs : List Instr := []
  varLocs : List (Nat × VarLoc) := []
  classified : List (ScalarInfo × ParameterConvention) := []

/-- The empty initial state. -/
def SGState.init : SGState := {}

/-- Well-formedness of the cleanup stack: identifiers are below the
fresh-identifier counter and pairwise distinct. -/
def SGState.wf (s : SGState) : Prop :=
  (∀ c ∈ s.cleanups, c.id < s.nextCleanup) ∧ (s.cleanups.map CleanupRec.id).Nodup

instance (s : SGState) : Decidable s.wf := by
  unfold SGState.wf; infer_instance

/-- Create one entry-block function argument of the given type. -/
def createFunctionArgument (ty : Ty) (decl : Option Nat) (s : SGState) :
    SILValue × SGState :=
  (SILValue.arg s.entryArgs.length,
   { s with entryArgs := s.entryArgs ++ [⟨ty, decl⟩],
            instrs := s.instrs ++ [.newArg ty decl] })

/-- Register a fresh active cleanup for a value, returning its id. -/
def pushCleanup (v : SILValue) (s : SGState) : Nat × SGState :=
  (s.nextCleanup,
   { s with cleanups := s.cleanups ++ [⟨s.nextCleanup, v, true⟩],
            nextCleanup := s.nextCleanup + 1 })

/-- Deactivate (dead-en) the cleanup with the given id. -/
def deactivateCleanup (id : Nat) (s : SGState) : SGState :=
  { s with cleanups :=
      s.cleanups.map (fun c => if c.id = id then { c with active := false } else c) }

/-- Record a variable binding in the variable-location table. -/
def setVarLoc (vid : Nat) (vl : VarLoc) (s : SGState) : SGState :=
  { s with varLocs := s.varLocs ++ [(vid, vl)] }

/-- Allocate a fresh stack temporary. -/
def emitTemporaryAllocation (s : SGState) : SILValue × SGState :=
  (SILValue.tempAlloc s.nextTemp,
   { s with nextTemp := s.nextTemp + 1,
            instrs := s.instrs ++ [.allocStack s.nextTemp] })

/-- A value together with its optional cleanup handle and lvalue-ness. -/
structure ManagedValue where
  value : SILValue
  cleanup : Option Nat := none
  isLValue : Bool := false

/-- An unmanaged (borrowed or trivial) value: no cleanup. -/
def ManagedValue.forUnmanaged (v : SILValue) : ManagedValue := ⟨v, none, false⟩

/-- An lvalue (address aliasing caller storage): no cleanup. -/
def ManagedValue.forLValue (v : SILValue) : ManagedValue := ⟨v, none, true⟩

/-- Whether the subsystem currently owns a release obligation for it. -/
def ManagedValue.hasCleanup (mv : ManagedValue) : Bool := mv.cleanup.isSome

/-- Modelled from the spec: `emitManagedRValueWithCleanup` (not part of
this source file) attaches a fresh release cleanup to the value and
returns it as managed. -/
def emitManagedRValueWithCleanup (v : SILValue) (s : SGState) :
    ManagedValue × SGState :=
  let (id, s) := pushCleanup v s
  (⟨v, some id, false⟩, s)

/-- Modelled from the spec: `emitManagedRetain` (not part of this source
file) immediately retains the value and attaches a release cleanup. -/
def emitManagedRetain (v : SILValue) (s : SGState) : ManagedValue × SGState :=
  emitManagedRValueWithCleanup v { s with instrs := s.instrs ++ [.retainValue v] }

/-- Modelled from the spec (I2): forwarding a managed value clears its
cleanup handle, transferring ownership exactly once. -/
def ManagedValue.forward (mv : ManagedValue) (s : SGState) : SILValue × SGState :=
  match mv.cleanup with
  | none => (mv.value, s)
  | some id => (mv.value, deactivateCleanup id s)

/-- Modelled from the spec: `copyUnmanaged` (not part of this source file)
defensively copies a borrowed value and manages the copy. -/
def ManagedValue.copyUnmanaged (mv : ManagedValue) (s : SGState) :
    ManagedValue × SGState :=
  emitManagedRValueWithCleanup (SILValue.copyValue mv.value)
    { s with instrs := s.instrs ++ [.copyValueInstr mv.value] }

/-- Modelled from the spec: `forwardInto` (not part of this source file)
forwards ownership into a destination address with a take-initialization. -/
def ManagedValue.forwardInto (mv : ManagedValue) (dest : SILValue) (s : SGState) :
    SGState :=
  let (v, s) := mv.forward s
  { s with instrs := s.instrs ++ [.copyAddrTake v dest] }

/-- Modelled from the spec: `copyInto` (not part of this source file)
copies a borrowed value into a destination address. -/
def ManagedValue.copyInto (mv : ManagedValue) (dest : SILValue) (s : SGState) :
    SGState :=
  { s with instrs := s.instrs ++ [.copyAddrCopy mv.value dest] }

/-- Modelled from the spec: `enterDestroyCleanup` (not part of this source
file) registers a destroy cleanup for the value. -/
def enterDestroyCleanup (v : SILValue) (s : SGState) : SGState :=
  (pushCleanup v s).2

/-- Ownership-convention resolver (`EmitBBArguments::getManagedValue`):
classifies the raw incoming argument according to the parameter's
convention.  `Indirect_In_Constant` is an internal invariant violation
(`llvm_unreachable` in the source), modelled as `none`. -/
def getManagedValue (arg : SILValue) (_t : Ty) (parameterInfo : SILParameterInfo)
    (s : SGState) : Option (ManagedValue × SGState) :=
  match parameterInfo.convention with
  | .Direct_Guaranteed | .Indirect_In_Guaranteed =>
    some (ManagedValue.forUnmanaged arg, s)
  | .Direct_Unowned =>
    some (emitManagedRetain arg s)
  | .Indirect_Inout | .Indirect_InoutAliasable =>
    some (ManagedValue.forLValue arg, s)
  | .Direct_Owned | .Indirect_In =>
    some (emitManagedRValueWithCleanup arg s)
  | .Indirect_In_Constant => none

/-- Scalar-leaf lowering (`EmitBBArguments::visitType`): pops the next
parameter descriptor off the front of the queue, creates one entry-block
argument, classifies it via the ownership-convention resolver, and — for a
block-typed value received at a true function entry — copies the block and
rebinds to a fresh owning cleanup.  Fails when the descriptor queue is
empty or the convention is the reserved `Indirect_In_Constant`. -/
def visitType (functionArgs : Bool) (decl : Option Nat) (info : ScalarInfo)
    (ps : List SILParameterInfo) (s : SGState) :
    Option (ManagedValue × List SILParameterInfo × SGState) :=
  match ps with
  | [] => none
  | parameterInfo :: rest =>
    let (arg, s) := createFunctionArgument (.scalar info) decl s
    match getManagedValue arg (.scalar info) parameterInfo s with
    | none => none
    | some (mv, s) =>
      let s := { s with classified := s.classified ++ [(info, parameterInfo.convention)] }
      if functionArgs && info.isBlock then
        let (mv2, s) := emitManagedRValueWithCleanup (SILValue.copyBlock mv.value)
          { s with instrs := s.instrs ++ [.copyBlockInstr mv.value] }
        some (mv2, rest, s)
      else
        some (mv, rest, s)

/-- Reassembly loop of `visitTupleType` for a register-passable tuple that
cannot stay borrowed: forward each element owning a cleanup, defensively
copy (then forward) each borrowed element. -/
def forwardOrCopyAll : List ManagedValue → SGState → List SILValue × SGState
  | [], s => ([], s)
  | m :: rest, s =>
    let (v, s) :=
      if m.hasCleanup then m.forward s
      else
        let (m2, s) := m.copyUnmanaged s
        m2.forward s
    let (vs, s) := forwardOrCopyAll rest s
    (v :: vs, s)

/-- Reassembly loop of `visitTupleType` for an address-only tuple: write
each element at its offset of the buffer (take-forwarded when it owns a
cleanup, copied when borrowed). -/
def writeElems (buffer : SILValue) : Nat → List ManagedValue → SGState → SGState
  | _, [], s => s
  | i, m :: rest, s =>
    let elementBuffer := SILValue.tupleElementAddr buffer i
    let s := if m.hasCleanup then m.forwardInto elementBuffer s
             else m.copyInto elementBuffer s
    writeElems buffer (i + 1) rest s

/-- Tail of `EmitBBArguments::visitTupleType`, applied to the exploded
element results: rebuild the tuple value (borrowed when possible,
otherwise at +1), or move the elements into a fresh stack buffer when the
type is address-only under lowered addresses. -/
def visitTupleFinish (cfg : SGConfig) (elts : List Ty)
    (pre : Option (List ManagedValue × List SILParameterInfo × SGState)) :
    Option (ManagedValue × List SILParameterInfo × SGState) :=
  match pre with
  | none => none
  | some (elements, ps1, s1) =>
    let tlLoadable := (Ty.tuple elts).loadable
    let canBeGuaranteed := tlLoadable && elements.all (fun m => !m.hasCleanup)
    if tlLoadable || !cfg.useLoweredAddresses then
      if canBeGuaranteed then
      let elementValues := elements.map (fun m => m.value)
      let tupleValue := SILValue.tuple elementValues
      let s2 := { s1 with instrs := s1.instrs ++ [.tupleInstr tupleValue] }
      some (ManagedValue.forUnmanaged tupleValue, ps1, s2)
      else
      let (elementValues, s2) := forwardOrCopyAll elements s1
      let tupleValue := SILValue.tuple elementValues
      let s2 := { s2 with instrs := s2.instrs ++ [.tupleInstr tupleValue] }
      let (mv, s3) := emitManagedRValueWithCleanup tupleValue s2
      some (mv, ps1, s3)
    else
      let (buffer, s2) := emitTemporaryAllocation s1
      let s3 := writeElems buffer 0 elements s2
      let (mv, s4) := emitManagedRValueWithCleanup buffer s3
      some (mv, ps1, s4)

mutual
/-- Recursive destructuring lowering (`EmitBBArguments::visit`): a scalar
leaf consumes one parameter descriptor and creates one entry-block
argument; a tuple explodes its elements depth-first and reassembles them. -/
def visit (cfg : SGConfig) (functionArgs : Bool) (decl : Option Nat) :
    Ty → List SILParameterInfo → SGState →
    Option (ManagedValue × List SILParameterInfo × SGState)
  | .scalar info, ps, s => visitType functionArgs decl info ps s
  | .tuple elts, ps, s =>
    visitTupleFinish cfg elts (visitList cfg functionArgs decl elts ps s)
termination_by structural t => t

/-- Explode a list of element types left to right, threading the
descriptor queue and the state. -/
def visitList (cfg : SGConfig) (functionArgs : Bool) (decl : Option Nat) :
    List Ty → List SILParameterInfo → SGState →
    Option (List ManagedValue × List SILParameterInfo × SGState)
  | [], ps, s => some ([], ps, s)
  | t :: ts, ps, s =>
    match visit cfg functionArgs decl t ps s with
    | none => none
    | some (mv, ps1, s1) =>
      match visitList cfg functionArgs decl ts ps1 s1 with
      | none => none
      | some (mvs, ps2, s2) => some (mv :: mvs, ps2, s2)
termination_by structural ts => ts
end

/-- A declared parameter: its variable identity, whether it has a name,
whether it is an in-out parameter, and its declared type. -/
structure ParamDecl where
  id : Nat
  hasName : Bool := true
  isInOut : Bool := false
  isLet : Bool := true
  ty : Ty

/-- Close a scope opened when the cleanup stack had the given depth:
cleanups registered since then are popped, and the still-active ones fire
(emit their releases) in reverse registration order. -/
def popScope (depth : Nat) (s : SGState) : SGState :=
  { s with
    cleanups := s.cleanups.take depth,
    instrs := s.instrs ++
      ((s.cleanups.drop depth).reverse.filter (fun c => c.active)).map
        (fun c => Instr.destroyValue c.value) }

/-- Emit a debug-value marker for a bound argument. -/
def emitDebugValue (v : SILValue) (argNo : Nat) (s : SGState) : SGState :=
  { s with instrs := s.instrs ++ [.debugValue v argNo] }

/-- Named-parameter binding (`ArgumentInitHelper::makeArgumentIntoBinding`):
lower the declared type, then bind the variable — directly for the
non-copyable buffer marker under inout, with a representation-preserving
reinterpretation for a mismatched dynamic-Self metatype, and as-is
otherwise — and record a debug marker. -/
def makeArgumentIntoBinding (cfg : SGConfig) (pd : ParamDecl) (argNo : Nat)
    (ps : List SILParameterInfo) (s : SGState) :
    Option (List SILParameterInfo × SGState) :=
  match visit cfg true (some pd.id) pd.ty ps s with
  | none => none
  | some (argrv, ps1, s1) =>
    if pd.isInOut && pd.ty.isBuiltinValueBuffer then
      some (ps1, emitDebugValue argrv.value argNo
                   (setVarLoc pd.id ⟨argrv.value, none⟩ s1))
    else
      let (argrv, s1) :=
        if !pd.isInOut && pd.ty.needsSelfBitcast then
          (ManagedValue.forUnmanaged (.bitcast argrv.value),
           { s1 with instrs := s1.instrs ++ [.bitcastInstr argrv.value] })
        else (argrv, s1)
      some (ps1, emitDebugValue argrv.value argNo
                   (setVarLoc pd.id ⟨argrv.value, none⟩ s1))

/-- Core of `ArgumentInitHelper::emitAnonymousParam` for one (sub)type:
open a discard scope, materialize the argument(s), emit the debug marker
when a parameter declaration is present, and close the scope so that any
by-convention cleanup fires at once. -/
def anonymousCore (cfg : SGConfig) (pdDebug : Option ParamDecl)
    (locDecl : Option Nat) (argNo : Nat) (ty : Ty)
    (ps : List SILParameterInfo) (s : SGState) :
    Option (List SILParameterInfo × SGState) :=
  let depth := s.cleanups.length
  match visit cfg true locDecl ty ps s with
  | none => none
  | some (argrv, ps1, s1) =>
    let s2 := match pdDebug with
      | none => s1
      | some _ => emitDebugValue argrv.value argNo s1
    some (ps1, popScope depth s2)

mutual
/-- Unnamed-parameter lowering (`ArgumentInitHelper::emitAnonymousParam`):
a non-materializable tuple is recursively split into independently
discarded leaves; otherwise the argument is materialized inside a discard
scope. -/
def emitAnonymousParam (cfg : SGConfig) (pdDebug : Option ParamDecl)
    (locDecl : Option Nat) (argNo : Nat) :
    Ty → List SILParameterInfo → SGState →
    Option (List SILParameterInfo × SGState)
  | .tuple elts, ps, s =>
    if !(Ty.tuple elts).materializable then
      emitAnonymousParamList cfg locDecl argNo elts ps s
    else
      anonymousCore cfg pdDebug locDecl argNo (.tuple elts) ps s
  | .scalar info, ps, s =>
    anonymousCore cfg pdDebug locDecl argNo (.scalar info) ps s
termination_by structural t => t

/-- Process the element types of a split unnamed tuple parameter in
order, with no parameter declaration attached to the pieces. -/
def emitAnonymousParamList (cfg : SGConfig) (locDecl : Option Nat)
    (argNo : Nat) :
    List Ty → List SILParameterInfo → SGState →
    Option (List SILParameterInfo × SGState)
  | [], ps, s => some (ps, s)
  | t :: ts, ps, s =>
    match emitAnonymousParam cfg none locDecl argNo t ps s with
    | none => none
    | some (ps1, s1) => emitAnonymousParamList cfg locDecl argNo ts ps1 s1
termination_by structural ts => ts
end

/-- Per-parameter driver (`ArgumentInitHelper::emitParam`): advance the
running ordinal, then bind a named parameter or discard an unnamed one. -/
def emitParam (cfg : SGConfig) (pd : ParamDecl) (argNo : Nat)
    (ps : List SILParameterInfo) (s : SGState) :
    Option (Nat × List SILParameterInfo × SGState) :=
  let argNo := argNo + 1
  if pd.hasName then
    match makeArgumentIntoBinding cfg pd argNo ps s with
    | none => none
    | some (ps1, s1) => some (argNo, ps1, s1)
  else
    match emitAnonymousParam cfg (some pd) (some pd.id) argNo pd.ty ps s with
    | none => none
    | some (ps1, s1) => some (argNo, ps1, s1)

/-- Process one declared parameter list in declaration order. -/
def emitParams (cfg : SGConfig) :
    List ParamDecl → Nat → List SILParameterInfo → SGState →
    Option (Nat × List SILParameterInfo × SGState)
  | [], argNo, ps, s => some (argNo, ps, s)
  | pd :: pds, argNo, ps, s =>
    match emitParam cfg pd argNo ps s with
    | none => none
    | some (argNo1, ps1, s1) => emitParams cfg pds argNo1 ps1 s1

/-- Process the declared parameter lists innermost first (the source
iterates `reversed(paramLists)`). -/
def emitParamLists (cfg : SGConfig) (paramLists : List (List ParamDecl))
    (argNo : Nat) (ps : List SILParameterInfo) (s : SGState) :
    Option (Nat × List SILParameterInfo × SGState) :=
  go paramLists.reverse argNo ps s
where
  /-- Fold `emitParams` over the already-reversed lists. -/
  go : List (List ParamDecl) → Nat → List SILParameterInfo → SGState →
      Option (Nat × List SILParameterInfo × SGState)
    | [], argNo, ps, s => some (argNo, ps, s)
    | l :: ls, argNo, ps, s =>
      match emitParams cfg l argNo ps s with
      | none => none
      | some (argNo1, ps1, s1) => go ls argNo1 ps1 s1

namespace Forwarding

mutual
/-- Static helper `makeArgument` of the forwarding path: destructure
tuples depth-first, creating one raw entry-block argument per scalar leaf
and appending it to the output vector.  No parameter descriptor is
consumed, no ownership classification happens, no cleanup is registered. -/
def makeArgument : Ty → Option Nat → List SILValue → SGState →
    List SILValue × SGState
  | .tuple elts, decl, args, s => makeArgumentList elts decl args s
  | .scalar info, decl, args, s =>
    let (arg, s) := createFunctionArgument (.scalar info) decl s
    (args ++ [arg], s)
termination_by structural t => t

/-- Destructure each tuple field in order for the forwarding path. -/
def makeArgumentList : List Ty → Option Nat → List SILValue → SGState →
    List SILValue × SGState
  | [], _, args, s => (args, s)
  | t :: ts, decl, args, s =>
    let (args1, s1) := makeArgument t decl args s
    makeArgumentList ts decl args1 s1
termination_by structural ts => ts
end

end Forwarding

/-- Raw parameter forwarding (`SILGenFunction::bindParametersForForwarding`):
create entry-block arguments for every parameter without conventions,
classification or cleanups. -/
def bindParametersForForwarding : List ParamDecl → List SILValue → SGState →
    List SILValue × SGState
  | [], args, s => (args, s)
  | pd :: pds, args, s =>
    let (args1, s1) := Forwarding.makeArgument pd.ty (some pd.id) args s
    bindParametersForForwarding pds args1 s1

mutual
/-- Indirect result synthesis (`emitIndirectResultParameters`): expand
tuples depth-first; for each scalar leaf whose representation must be
returned through memory, synthesize one hidden output-address entry-block
argument (bound to a freshly invented result variable, recorded here with
no declaration identity), with no cleanup. -/
def emitIndirectResultParameters : Ty → SGState → SGState
  | .tuple elts, s => emitIndirectResultParametersList elts s
  | .scalar info, s =>
    if info.returnedIndirectly then
      (createFunctionArgument (.scalar info) none s).2
    else s
termination_by structural t => t

/-- Expand the elements of a tuple return type in order. -/
def emitIndirectResultParametersList : List Ty → SGState → SGState
  | [], s => s
  | t :: ts, s => emitIndirectResultParametersList ts (emitIndirectResultParameters t s)
termination_by structural ts => ts
end

/-- Kinds of closure captures (`CaptureKind`). -/
inductive CaptureKind where
  | None
  | Constant
  | Box
  | StorageAddress
  deriving DecidableEq, Repr

/-- One captured variable: its identity, capture kind, dynamic-self flag,
its type in the capture context, and whether the originating binding was
settable in its defining scope. -/
structure CapturedValue where
  declId : Nat
  kind : CaptureKind
  isDynamicSelfMetadata : Bool := false
  ty : Ty
  settable : Bool := false

/-- The lowered capture list of a closure, together with the metatype used
for the reserved dynamic-self-metadata case. -/
structure CaptureInfo where
  captures : List CapturedValue
  dynamicSelfTy : Ty

/-- Capture binding (`emitCaptureArguments`): bind one captured variable
according to its capture kind, registering cleanups unless the module is
in guaranteed-closure-context mode. -/
def emitCaptureArguments (cfg : SGConfig) (c : CapturedValue) (argNo : Nat)
    (s : SGState) : SGState :=
  match c.kind with
  | .None => s
  | .Constant =>
    let (val, s) := createFunctionArgument c.ty (some c.declId) s
    let needToDestroyValueAtExit := !cfg.enableGuaranteedClosureContexts
    if c.settable then
      let (addr, s) := emitTemporaryAllocation s
      let (stored, needToDestroyValueAtExit, s) :=
        if cfg.enableGuaranteedClosureContexts then
          (SILValue.copyValue val, true,
           { s with instrs := s.instrs ++ [.copyValueInstr val] })
        else (val, needToDestroyValueAtExit, s)
      let s := { s with instrs := s.instrs ++ [.storeInstr stored addr] }
      let s := setVarLoc c.declId ⟨addr, none⟩ s
      if needToDestroyValueAtExit && !c.ty.trivial then
        enterDestroyCleanup addr s
      else s
    else
      let s := setVarLoc c.declId ⟨val, none⟩ s
      let s := emitDebugValue val argNo s
      if needToDestroyValueAtExit && !c.ty.trivial then
        enterDestroyCleanup val s
      else s
  | .Box =>
    let (box, s) := createFunctionArgument c.ty (some c.declId) s
    let addr := SILValue.projectBox box
    let s := { s with instrs := s.instrs ++ [.projectBoxInstr box] }
    let s := setVarLoc c.declId ⟨addr, some box⟩ s
    let s := emitDebugValue addr argNo s
    if !cfg.enableGuaranteedClosureContexts then (pushCleanup box s).2 else s
  | .StorageAddress =>
    let (addr, s) := createFunctionArgument c.ty (some c.declId) s
    let s := setVarLoc c.declId ⟨addr, none⟩ s
    emitDebugValue addr argNo s

/-- Capture loop of the closure prologue: bind captures in stable order,
stopping immediately — with one special metatype argument and no binding —
at a capture flagged as dynamic-self-type metadata. -/
def captureLoop (cfg : SGConfig) (ci : CaptureInfo) :
    Nat → List CapturedValue → SGState → SGState
  | _, [], s => s
  | argNo, c :: rest, s =>
    if c.isDynamicSelfMetadata then
      (createFunctionArgument ci.dynamicSelfTy none s).2
    else
      captureLoop cfg ci (argNo + 1) rest
        (emitCaptureArguments cfg c (argNo + 1) s)

/-- Prologue driver (`SILGenFunction::emitProlog`, parameter-list
overload): synthesize indirect results, emit the parameter lists innermost
first, then — for a throwing function — record the synthetic error-slot
debug marker with the next ordinal, returning the running ordinal. -/
def emitProlog (cfg : SGConfig) (paramLists : List (List ParamDecl))
    (resultType : Ty) (throws : Bool) (ps : List SILParameterInfo)
    (s : SGState) : Option (Nat × List SILParameterInfo × SGState) :=
  let s := emitIndirectResultParameters resultType s
  match emitParamLists cfg paramLists 0 ps s with
  | none => none
  | some (argNo, ps1, s1) =>
    if throws then
      some (argNo + 1, ps1,
            { s1 with instrs := s1.instrs ++ [.debugErrorValue (argNo + 1)] })
    else
      some (argNo, ps1, s1)

/-- Closure prologue driver (`SILGenFunction::emitProlog`, closure
overload): run the parameter prologue, then bind the captures, honoring
the dynamic-self short circuit. -/
def emitPrologClosure (cfg : SGConfig) (ci : CaptureInfo)
    (paramLists : List (List ParamDecl)) (resultType : Ty) (throws : Bool)
    (ps : List SILParameterInfo) (s : SGState) :
    Option (List SILParameterInfo × SGState) :=
  match emitProlog cfg paramLists resultType throws ps s with
  | none => none
  | some (argNo, ps1, s1) =>
    some (ps1, captureLoop cfg ci argNo ci.captures s1)

/-! Derived observables used to state the verified properties. -/

/-- Whether a value is one of the first `n` entry-block arguments. -/
def SILValue.isArgBelow (n : Nat) : SILValue → Bool
  | .arg j => j < n
  | _ => false

/-- Whether an instruction records entry-block argument materialization. -/
def Instr.isNewArgEvent : Instr → Bool
  | .newArg _ _ => true
  | _ => false

/-- Whether an instruction is the synthetic error-slot debug marker. -/
def Instr.isErrorMarker : Instr → Bool
  | .debugErrorValue _ => true
  | _ => false

/-- The cleanup handles owned by a list of element values. -/
def focIds (mvs : List ManagedValue) : List Nat :=
  mvs.filterMap (fun m => m.cleanup)

/-- Deactivate a cleanup record when its id belongs to the given set. -/
def deactivateAll (ids : List Nat) (c : CleanupRec) : CleanupRec :=
  if c.id ∈ ids then { c with active := false } else c

/-- The value each element contributes to a +1 reassembled tuple: its own
value when forwarded, a defensive copy when it was borrowed. -/
def forwardedOrCopied (m : ManagedValue) : SILValue :=
  if m.hasCleanup then m.value else .copyValue m.value

/-- Number of borrowed elements that get defensively copied. -/
def numCopies (mvs : List ManagedValue) : Nat :=
  (mvs.filter (fun m => !m.hasCleanup)).length

/-- The copy instructions emitted by the +1 register reassembly loop. -/
def copiedInstrs : List ManagedValue → List Instr
  | [] => []
  | m :: rest =>
    if m.hasCleanup then copiedInstrs rest
    else .copyValueInstr m.value :: copiedInstrs rest

/-- The (immediately dead) cleanup records left behind by defensive
copies during reassembly, with their consecutive fresh identifiers. -/
def copiedEntries : Nat → List ManagedValue → List CleanupRec
  | _, [] => []
  | start, m :: rest =>
    if m.hasCleanup then copiedEntries start rest
    else ⟨start, .copyValue m.value, false⟩ :: copiedEntries (start + 1) rest

/-- The element-by-element writes of the address-only reassembly: each
element lands at its own offset of the buffer, take-forwarded when owned,
copied when borrowed. -/
def bufferWrites (buffer : SILValue) : Nat → List ManagedValue → List Instr
  | _, [] => []
  | i, m :: rest =>
    (if m.hasCleanup then Instr.copyAddrTake m.value (.tupleElementAddr buffer i)
     else Instr.copyAddrCopy m.value (.tupleElementAddr buffer i)) ::
    bufferWrites buffer (i + 1) rest

mutual
/-- The independently discarded pieces of an unnamed parameter: a
non-materializable tuple splits recursively, everything else is one
piece. -/
def splitLeaves : Ty → List Ty
  | .scalar info => [.scalar info]
  | .tuple elts =>
    if !(Ty.tuple elts).materializable then splitLeavesList elts
    else [.tuple elts]
termination_by structural t => t

/-- Concatenated split pieces of a list of element types. -/
def splitLeavesList : List Ty → List Ty
  | [] => []
  | t :: ts => splitLeaves t ++ splitLeavesList ts
termination_by structural ts => ts
end

/-- Sequential discarding of the split pieces of an unnamed parameter:
each piece is materialized inside its own discard scope, with no
declaration bound. -/
def anonFold (cfg : SGConfig) (locDecl : Option Nat) (argNo : Nat) :
    List Ty → List SILParameterInfo → SGState →
    Option (List SILParameterInfo × SGState)
  | [], ps, s => some (ps, s)
  | t :: ts, ps, s =>
    match anonymousCore cfg none locDecl argNo t ps s with
    | none => none
    | some (ps1, s1) => anonFold cfg locDecl argNo ts ps1 s1

/-- The synthesized hidden output-address arguments of a return type: one
per depth-first scalar leaf that must be returned through memory. -/
def irArgList (t : Ty) : List EntryArg :=
  (t.leaves.filter (fun i => i.returnedIndirectly)).map
    (fun i => ⟨.scalar i, none⟩)

/-- Basic evolution facts of one destructuring pass over leaves `lvs`:
descriptor queue consumption, argument materialization, untouched
variable table, the classification trace, and the emitted tail. -/
def VisitBasic (decl : Option Nat) (lvs : List ScalarInfo)
    (ps ps' : List SILParameterInfo) (s s' : SGState) : Prop :=
  ps' = ps.drop lvs.length ∧
  lvs.length ≤ ps.length ∧
  s'.entryArgs = s.entryArgs ++ lvs.map (fun i => (⟨Ty.scalar i, decl⟩ : EntryArg)) ∧
  s'.varLocs = s.varLocs ∧
  s'.classified = s.classified ++ lvs.zip (ps.map SILParameterInfo.convention) ∧
  s.nextCleanup ≤ s'.nextCleanup ∧
  ∃ tail, s'.instrs = s.instrs ++ tail ∧
    tail.countP Instr.isNewArgEvent = lvs.length ∧
    tail.countP Instr.isErrorMarker = 0

/-- Cleanup-stack evolution facts of one destructuring pass: the stack is
extended, existing records are untouched, new records have fresh
identifiers and never release an earlier entry-block argument. -/
def CleanupEvolution (s s' : SGState) : Prop :=
  ∃ news, s'.cleanups = s.cleanups ++ news ∧
    ∀ c ∈ news, s.nextCleanup ≤ c.id ∧ c.id < s'.nextCleanup ∧
      c.value.isArgBelow s.entryArgs.length = false

/-- Cleanup facts of one destructuring pass returning one value: stack
evolution, fresh identifier discipline, well-formedness preservation, an
unchanged stack for unmanaged results, and fresh bounds for the result's
cleanup handle. -/
def CleanupFacts (s s' : SGState) (mv : ManagedValue) : Prop :=
  CleanupEvolution s s' ∧
  s.nextCleanup ≤ s'.nextCleanup ∧
  s'.wf ∧
  (mv.cleanup = none → s'.cleanups = s.cleanups ∧ s'.nextCleanup = s.nextCleanup) ∧
  (∀ id, mv.cleanup = some id → s.nextCleanup ≤ id ∧ id < s'.nextCleanup)

/-- Cleanup facts of one destructuring pass over a list of element types. -/
def CleanupListFacts (s s' : SGState) (mvs : List ManagedValue) : Prop :=
  CleanupEvolution s s' ∧
  s.nextCleanup ≤ s'.nextCleanup ∧
  s'.wf ∧
  ((∀ m ∈ mvs, m.cleanup = none) → s'.cleanups = s.cleanups ∧ s'.nextCleanup = s.nextCleanup) ∧
  (∀ m ∈ mvs, ∀ id, m.cleanup = some id → s.nextCleanup ≤ id ∧ id < s'.nextCleanup)

/-- The entry-block arguments created by the raw forwarding path: one per
depth-first scalar leaf of each parameter, bound to that parameter. -/
def forwardingEntries (params : List ParamDecl) : List EntryArg :=
  params.foldr
    (fun pd acc =>
      pd.ty.leaves.map (fun i => (⟨Ty.scalar i, some pd.id⟩ : EntryArg)) ++ acc)
    []

/-- Evolution facts of one prologue phase that creates `k` entry-block
arguments: well-formedness, monotone cleanup counter, argument extension,
cleanup extension by fresh records never covering an earlier argument, an
appended instruction tail with `k` materialization events and no error
marker, and an append-only variable table. -/
def PhaseFacts (k : Nat) (s s' : SGState) : Prop :=
  s'.wf ∧
  s.nextCleanup ≤ s'.nextCleanup ∧
  (∃ rest, s'.entryArgs = s.entryArgs ++ rest ∧ rest.length = k) ∧
  (∃ news, s'.cleanups = s.cleanups ++ news ∧
    ∀ c ∈ news, s.nextCleanup ≤ c.id ∧
      c.value.isArgBelow s.entryArgs.length = false) ∧
  (∃ tail, s'.instrs = s.instrs ++ tail ∧
    tail.countP Instr.isNewArgEvent = k ∧
    tail.countP Instr.isErrorMarker = 0) ∧
  (∃ newvl, s'.varLocs = s.varLocs ++ newvl)

/-- Total number of scalar leaves across a parameter list. -/
def paramsLeafCount : List ParamDecl → Nat
  | [] => 0
  | pd :: pds => pd.ty.leaves.length + paramsLeafCount pds

/-- Total number of scalar leaves across a list of parameter lists. -/
def paramListsLeafCount : List (List ParamDecl) → Nat
  | [] => 0
  | l :: ls => paramsLeafCount l + paramListsLeafCount ls

/-- Total number of declared parameters across a list of parameter lists. -/
def paramListsCount : List (List ParamDecl) → Nat
  | [] => 0
  | l :: ls => l.length + paramListsCount ls

/-! Algebra of cleanup-record deactivation. -/

theorem deactivateAll_nil (c : CleanupRec) : deactivateAll [] c = c := by
  simp [deactivateAll]

theorem deactivateAll_inactive (ids : List Nat) (c : CleanupRec)
    (h : c.active = false) : deactivateAll ids c = c := by
  unfold deactivateAll
  split
  · cases c
    simp_all
  · rfl

theorem deactivateAll_id (ids : List Nat) (c : CleanupRec) :
    (deactivateAll ids c).id = c.id := by
  unfold deactivateAll
  split <;> rfl

theorem deactivateAll_value (ids : List Nat) (c : CleanupRec) :
    (deactivateAll ids c).value = c.value := by
  unfold deactivateAll
  split <;> rfl

theorem deactivateAll_comp (id : Nat) (ids : List Nat) (c : CleanupRec) :
    deactivateAll ids (if c.id = id then { c with active := false } else c)
      = deactivateAll (id :: ids) c := by
  by_cases h : c.id = id
  · have h1 : deactivateAll (id :: ids) c = { c with active := false } := by
      unfold deactivateAll
      rw [if_pos (by simp [h])]
    have h2 : deactivateAll ids { c with active := false }
        = { c with active := false } :=
      deactivateAll_inactive ids _ rfl
    rw [if_pos h, h1, h2]
  · rw [if_neg h]
    unfold deactivateAll
    refine if_congr ?_ rfl rfl
    simp [List.mem_cons, h]

theorem map_deactivateAll_nil (l : List CleanupRec) :
    l.map (deactivateAll []) = l := by
  rw [List.map_congr_left (fun c _ => deactivateAll_nil c)]
  simp

theorem deactivateCleanup_cleanups (id : Nat) (s : SGState) :
    (deactivateCleanup id s).cleanups
      = s.cleanups.map (fun c => if c.id = id then { c with active := false } else c) :=
  rfl

theorem map_deact_below (id : Nat) (l : List CleanupRec)
    (h : ∀ c ∈ l, c.id ≠ id) :
    l.map (fun c => if c.id = id then { c with active := false } else c) = l := by
  induction l with
  | nil => rfl
  | cons c cs ih =>
    simp only [List.map_cons, if_neg (h c (List.mem_cons_self c cs))]
    rw [ih (fun c hc => h c (List.mem_cons_of_mem _ hc))]

/-- Exact effect of the register +1 reassembly loop: forwarded or copied
element values, element cleanup handles deactivated, inactive fresh
records for the copies, and one copy instruction per borrowed element. -/
theorem forwardOrCopyAll_spec (mvs : List ManagedValue) : ∀ (s : SGState),
    (∀ c ∈ s.cleanups, c.id < s.nextCleanup) →
    forwardOrCopyAll mvs s =
      (mvs.map forwardedOrCopied,
       { s with
         cleanups := s.cleanups.map (deactivateAll (focIds mvs))
             ++ copiedEntries s.nextCleanup mvs,
         nextCleanup := s.nextCleanup + numCopies mvs,
         instrs := s.instrs ++ copiedInstrs mvs }) := by
  induction mvs with
  | nil =>
    intro s _
    simp [forwardOrCopyAll, focIds, copiedEntries, numCopies, copiedInstrs,
      map_deactivateAll_nil]
  | cons m rest ih =>
    intro s h
    cases hm : m.cleanup with
    | some id =>
      have hc : m.hasCleanup = true := by
        simp [ManagedValue.hasCleanup, hm]
      have hids : ∀ c ∈ (deactivateCleanup id s).cleanups,
          c.id < (deactivateCleanup id s).nextCleanup := by
        intro c hcmem
        rw [deactivateCleanup_cleanups] at hcmem
        obtain ⟨c0, hc0, heq⟩ := List.mem_map.mp hcmem
        have hcid : c.id = c0.id := by
          subst heq
          split <;> rfl
        rw [show (deactivateCleanup id s).nextCleanup = s.nextCleanup from rfl, hcid]
        exact h c0 hc0
      simp only [forwardOrCopyAll, hc, if_true, ManagedValue.forward, hm,
        ih (deactivateCleanup id s) hids]
      simp only [deactivateCleanup]
      simp [Prod.mk.injEq, forwardedOrCopied, hc, focIds, copiedEntries,
        numCopies, copiedInstrs, hm]
      intro a _
      exact deactivateAll_comp id _ a
    | none =>
      have hc : m.hasCleanup = false := by
        simp [ManagedValue.hasCleanup, hm]
      have hdeact : (s.cleanups ++ [(⟨s.nextCleanup, .copyValue m.value, true⟩ : CleanupRec)]).map
          (fun c => if c.id = s.nextCleanup then { c with active := false } else c)
          = s.cleanups ++ [⟨s.nextCleanup, .copyValue m.value, false⟩] := by
        rw [List.map_append, map_deact_below s.nextCleanup s.cleanups
          (fun c hcmem => Nat.ne_of_lt (h c hcmem))]
        simp
      have hlt1 : ∀ c ∈ s.cleanups ++ [(⟨s.nextCleanup, .copyValue m.value, false⟩ : CleanupRec)],
          c.id < s.nextCleanup + 1 := by
        intro c hcmem
        rcases List.mem_append.mp hcmem with hcmem | hcmem
        · exact Nat.lt_succ_of_lt (h c hcmem)
        · rw [List.mem_singleton.mp hcmem]
          exact Nat.lt_succ_self _
      have hfresh : (s.cleanups ++ [(⟨s.nextCleanup, .copyValue m.value, false⟩ : CleanupRec)]).map
          (deactivateAll (focIds rest))
          = s.cleanups.map (deactivateAll (focIds rest))
            ++ [⟨s.nextCleanup, .copyValue m.value, false⟩] := by
        rw [List.map_append]
        simp [deactivateAll_inactive]
      simp only [forwardOrCopyAll, hc, Bool.false_eq_true, if_false,
        ManagedValue.copyUnmanaged, emitManagedRValueWithCleanup, pushCleanup,
        ManagedValue.forward, deactivateCleanup]
      simp only [hdeact]
      rw [ih { s with
          cleanups := s.cleanups ++ [⟨s.nextCleanup, .copyValue m.value, false⟩],
          nextCleanup := s.nextCleanup + 1,
          instrs := s.instrs ++ [.copyValueInstr m.value] } hlt1]
      simp only [hfresh]
      simp [Prod.mk.injEq, forwardedOrCopied, hc, focIds, copiedEntries,
        numCopies, copiedInstrs, hm]
      omega

/-- Exact effect of the address-only reassembly loop: element cleanup
handles deactivated and one offset write per element. -/
theorem writeElems_spec (mvs : List ManagedValue) :
    ∀ (buffer : SILValue) (i : Nat) (s : SGState),
    writeElems buffer i mvs s =
      { s with
        cleanups := s.cleanups.map (deactivateAll (focIds mvs)),
        instrs := s.instrs ++ bufferWrites buffer i mvs } := by
  induction mvs with
  | nil =>
    intro buffer i s
    simp [writeElems, focIds, bufferWrites, map_deactivateAll_nil]
  | cons m rest ih =>
    intro buffer i s
    cases hm : m.cleanup with
    | some id =>
      have hc : m.hasCleanup = true := by
        simp [ManagedValue.hasCleanup, hm]
      simp only [writeElems, hc, if_pos, ManagedValue.forwardInto,
        ManagedValue.forward, hm]
      rw [ih]
      simp only [focIds, List.filterMap_cons, hm, bufferWrites, hc]
      simp [deactivateCleanup]
      intro a _
      exact deactivateAll_comp id _ a
    | none =>
      have hc : m.hasCleanup = false := by
        simp [ManagedValue.hasCleanup, hm]
      simp only [writeElems, hc, Bool.false_eq_true, if_neg, ManagedValue.copyInto]
      rw [ih]
      simp [focIds, List.filterMap_cons, hm, bufferWrites, hc]

/-! Basic evolution facts of the destructurer. -/

theorem zip_append_drop {α β : Type} (l1 l2 : List α) (ps : List β)
    (h : l1.length ≤ ps.length) :
    (l1 ++ l2).zip ps = l1.zip ps ++ l2.zip (ps.drop l1.length) := by
  induction l1 generalizing ps with
  | nil => simp
  | cons a l ih =>
    cases ps with
    | nil => simp at h
    | cons p ps =>
      simp only [List.cons_append, List.zip_cons_cons, List.length_cons,
        List.drop_succ_cons]
      rw [ih ps (Nat.le_of_succ_le_succ h)]

theorem visitBasic_rfl (decl : Option Nat) (ps : List SILParameterInfo)
    (s : SGState) : VisitBasic decl [] ps ps s s := by
  unfold VisitBasic
  exact ⟨by simp, by simp, by simp, rfl, by simp, Nat.le_refl _, ⟨[], by simp, rfl, rfl⟩⟩

theorem visitBasic_trans (decl : Option Nat) (l1 l2 : List ScalarInfo)
    (ps ps1 ps2 : List SILParameterInfo) (s s1 s2 : SGState)
    (h1 : VisitBasic decl l1 ps ps1 s s1) (h2 : VisitBasic decl l2 ps1 ps2 s1 s2) :
    VisitBasic decl (l1 ++ l2) ps ps2 s s2 := by
  obtain ⟨hd1, hl1, he1, hv1, hc1, hn1, t1, hi1, hna1, hm1⟩ := h1
  obtain ⟨hd2, hl2, he2, hv2, hc2, hn2, t2, hi2, hna2, hm2⟩ := h2
  subst hd1
  have hlen2 : l2.length ≤ ps.length - l1.length := by
    simpa [List.length_drop] using hl2
  refine ⟨?_, ?_, ?_, ?_, ?_, Nat.le_trans hn1 hn2, t1 ++ t2, ?_, ?_, ?_⟩
  · rw [hd2, List.drop_drop, List.length_append, Nat.add_comm]
  · simp only [List.length_append]
    omega
  · rw [he2, he1, List.map_append, List.append_assoc]
  · rw [hv2, hv1]
  · rw [hc2, hc1, List.append_assoc]
    have hmps : l1.length ≤ (ps.map SILParameterInfo.convention).length := by
      simpa using hl1
    rw [zip_append_drop l1 l2 _ hmps, List.map_drop]
  · rw [hi2, hi1, List.append_assoc]
  · simp [List.countP_append, hna1, hna2]
  · simp [List.countP_append, hm1, hm2]

/-- Case analysis of the ownership-convention resolver: a successful
resolution either borrows the value, treats it as an lvalue, or claims it
at +1 with a fresh release cleanup (after an extra retain exactly for the
unowned convention). -/
theorem getManagedValue_cases (arg : SILValue) (t : Ty) (p : SILParameterInfo)
    (s : SGState) (mv0 : ManagedValue) (s0 : SGState)
    (h : getManagedValue arg t p s = some (mv0, s0)) :
    (mv0 = ManagedValue.forUnmanaged arg ∧ s0 = s) ∨
    (mv0 = ManagedValue.forLValue arg ∧ s0 = s) ∨
    (∃ retained : Bool,
      mv0 = ⟨arg, some s.nextCleanup, false⟩ ∧
      s0 = { s with
        cleanups := s.cleanups ++ [⟨s.nextCleanup, arg, true⟩],
        nextCleanup := s.nextCleanup + 1,
        instrs := if retained then s.instrs ++ [.retainValue arg] else s.instrs }) := by
  cases hcv : p.convention <;>
    simp only [getManagedValue, hcv, emitManagedRetain, emitManagedRValueWithCleanup,
      pushCleanup, Option.some.injEq, Prod.mk.injEq] at h
  case Indirect_In_Constant => exact Option.noConfusion h
  case Direct_Guaranteed => exact Or.inl ⟨h.1.symm, h.2.symm⟩
  case Indirect_In_Guaranteed => exact Or.inl ⟨h.1.symm, h.2.symm⟩
  case Direct_Unowned =>
    refine Or.inr (Or.inr ⟨true, h.1.symm, ?_⟩)
    rw [← h.2]
    simp
  case Indirect_Inout => exact Or.inr (Or.inl ⟨h.1.symm, h.2.symm⟩)
  case Indirect_InoutAliasable => exact Or.inr (Or.inl ⟨h.1.symm, h.2.symm⟩)
  case Direct_Owned =>
    refine Or.inr (Or.inr ⟨false, h.1.symm, ?_⟩)
    rw [← h.2]
    simp
  case Indirect_In =>
    refine Or.inr (Or.inr ⟨false, h.1.symm, ?_⟩)
    rw [← h.2]
    simp

theorem getManagedValue_some (arg : SILValue) (t : Ty) (p : SILParameterInfo)
    (s : SGState) (h : p.convention ≠ .Indirect_In_Constant) :
    (getManagedValue arg t p s).isSome := by
  cases hcv : p.convention <;>
    first
    | exact absurd hcv h
    | simp [getManagedValue, hcv, emitManagedRetain, emitManagedRValueWithCleanup]

theorem isArgBelow_mono (n m : Nat) (v : SILValue) (hle : n ≤ m)
    (h : v.isArgBelow m = false) : v.isArgBelow n = false := by
  cases v <;> simp [SILValue.isArgBelow] at h ⊢
  omega

theorem map_deactivateAll_not_mem (ids : List Nat) (l : List CleanupRec)
    (h : ∀ c ∈ l, c.id ∉ ids) : l.map (deactivateAll ids) = l := by
  rw [List.map_congr_left (fun c hc => by unfold deactivateAll; rw [if_neg (h c hc)])]
  simp

theorem ids_map_deactivateAll (ids : List Nat) (l : List CleanupRec) :
    (l.map (deactivateAll ids)).map CleanupRec.id = l.map CleanupRec.id := by
  rw [List.map_map]
  exact List.map_congr_left (fun c _ => deactivateAll_id ids c)

theorem mem_focIds (mvs : List ManagedValue) (id : Nat) :
    id ∈ focIds mvs ↔ ∃ m ∈ mvs, m.cleanup = some id := by
  simp [focIds, List.mem_filterMap]

theorem copiedEntries_facts (mvs : List ManagedValue) : ∀ (start : Nat),
    (∀ c ∈ copiedEntries start mvs,
        start ≤ c.id ∧ c.id < start + numCopies mvs ∧ c.active = false ∧
        (∀ n, c.value.isArgBelow n = false)) ∧
    ((copiedEntries start mvs).map CleanupRec.id).Nodup := by
  induction mvs with
  | nil =>
    intro start
    simp [copiedEntries, numCopies]
  | cons m rest ih =>
    intro start
    cases hc : m.hasCleanup with
    | true =>
      have hnum : numCopies (m :: rest) = numCopies rest := by
        simp [numCopies, List.filter_cons, hc]
      rw [show copiedEntries start (m :: rest) = copiedEntries start rest from by
        simp [copiedEntries, hc], hnum]
      exact ih start
    | false =>
      have hnum : numCopies (m :: rest) = numCopies rest + 1 := by
        simp [numCopies, List.filter_cons, hc]
      rw [show copiedEntries start (m :: rest)
          = ⟨start, .copyValue m.value, false⟩ :: copiedEntries (start + 1) rest from by
        simp [copiedEntries, hc], hnum]
      constructor
      · intro c hcmem
        rcases List.mem_cons.mp hcmem with hcmem | hcmem
        · subst hcmem
          refine ⟨Nat.le_refl _, ?_, rfl, fun n => rfl⟩
          show start < start + (numCopies rest + 1)
          omega
        · obtain ⟨h1, h2, h3, h4⟩ := (ih (start + 1)).1 c hcmem
          exact ⟨by omega, by omega, h3, h4⟩
      · rw [List.map_cons]
        refine List.nodup_cons.mpr ⟨?_, (ih (start + 1)).2⟩
        intro hmem
        obtain ⟨c, hcmem, hcid⟩ := List.mem_map.mp hmem
        have hb := (ih (start + 1)).1 c hcmem
        have hcid' : c.id = start := by simpa using hcid
        omega

theorem copiedInstrs_counts (mvs : List ManagedValue) :
    (copiedInstrs mvs).countP Instr.isNewArgEvent = 0 ∧
    (copiedInstrs mvs).countP Instr.isErrorMarker = 0 := by
  induction mvs with
  | nil => simp [copiedInstrs]
  | cons m rest ih =>
    cases hc : m.hasCleanup <;>
      simp [copiedInstrs, hc, List.countP_cons, Instr.isNewArgEvent,
        Instr.isErrorMarker, ih.1, ih.2]

theorem bufferWrites_counts (mvs : List ManagedValue) :
    ∀ (buffer : SILValue) (i : Nat),
    (bufferWrites buffer i mvs).countP Instr.isNewArgEvent = 0 ∧
    (bufferWrites buffer i mvs).countP Instr.isErrorMarker = 0 := by
  induction mvs with
  | nil => intro buffer i; simp [bufferWrites]
  | cons m rest ih =>
    intro buffer i
    cases hc : m.hasCleanup <;>
      simp [bufferWrites, hc, List.countP_cons, Instr.isNewArgEvent,
        Instr.isErrorMarker, (ih buffer (i + 1)).1, (ih buffer (i + 1)).2]

theorem wf_push_cons (cl : List CleanupRec) (n : Nat) (v : SILValue)
    (h1 : ∀ c ∈ cl, c.id < n) (h2 : (cl.map CleanupRec.id).Nodup) :
    (∀ c ∈ cl ++ [(⟨n, v, true⟩ : CleanupRec)], c.id < n + 1) ∧
    (((cl ++ [(⟨n, v, true⟩ : CleanupRec)]).map CleanupRec.id).Nodup) := by
  constructor
  · intro c hc
    rcases List.mem_append.mp hc with hc | hc
    · exact Nat.lt_succ_of_lt (h1 c hc)
    · rw [List.mem_singleton.mp hc]
      exact Nat.lt_succ_self n
  · rw [List.map_append]
    refine List.Nodup.append h2 (by simp) ?_
    intro a ha hb
    simp only [List.map_cons, List.map_nil, List.mem_singleton] at hb
    obtain ⟨c, hc, hcid⟩ := List.mem_map.mp ha
    have := h1 c hc
    omega

theorem all_unmanaged_iff (mvs : List ManagedValue) :
    mvs.all (fun m => !m.hasCleanup) = true ↔ ∀ m ∈ mvs, m.cleanup = none := by
  rw [List.all_eq_true]
  constructor
  · intro h m hm
    have := h m hm
    revert this
    cases hcl : m.cleanup <;> simp [ManagedValue.hasCleanup, hcl]
  · intro h m hm
    simp [ManagedValue.hasCleanup, h m hm]

@[simp] theorem forUnmanaged_value (v : SILValue) :
    (ManagedValue.forUnmanaged v).value = v := rfl

@[simp] theorem forUnmanaged_cleanup (v : SILValue) :
    (ManagedValue.forUnmanaged v).cleanup = none := rfl

@[simp] theorem forLValue_value (v : SILValue) :
    (ManagedValue.forLValue v).value = v := rfl

@[simp] theorem forLValue_cleanup (v : SILValue) :
    (ManagedValue.forLValue v).cleanup = none := rfl

/-- Combined evolution facts of the scalar-leaf lowering: one descriptor
consumed, one entry-block argument created, the classification recorded,
and the cleanup stack extended according to the resolved convention. -/
theorem visitType_facts (fa : Bool) (decl : Option Nat) (info : ScalarInfo)
    (ps : List SILParameterInfo) (s : SGState) (mv : ManagedValue)
    (ps' : List SILParameterInfo) (s' : SGState)
    (h : visitType fa decl info ps s = some (mv, ps', s')) :
    VisitBasic decl [info] ps ps' s s' ∧ (s.wf → CleanupFacts s s' mv) := by
  match ps with
  | [] => exact absurd h (by simp [visitType])
  | p :: rest =>
    unfold visitType at h
    simp only [createFunctionArgument] at h
    cases hg : getManagedValue (SILValue.arg s.entryArgs.length) (Ty.scalar info) p
        { s with entryArgs := s.entryArgs ++ [⟨Ty.scalar info, decl⟩],
                 instrs := s.instrs ++ [.newArg (Ty.scalar info) decl] } with
    | none =>
      rw [hg] at h
      exact Option.noConfusion h
    | some ms =>
      obtain ⟨mv0, s0⟩ := ms
      rw [hg] at h
      simp only [emitManagedRValueWithCleanup, pushCleanup] at h
      rcases getManagedValue_cases _ _ _ _ _ _ hg with ⟨rfl, rfl⟩ | ⟨rfl, rfl⟩ |
        ⟨retained, rfl, rfl⟩ <;>
        by_cases hblk : (fa && info.isBlock) = true <;>
        simp only [hblk, if_true, if_false, Bool.false_eq_true,
          Option.some.injEq, Prod.mk.injEq] at h <;>
        obtain ⟨rfl, rfl, rfl⟩ := h
      -- borrowed, with block copy
      case pos =>
        refine ⟨⟨by simp, by simp, by simp, by simp, by simp, by simp,
          ⟨[.newArg (Ty.scalar info) decl, .copyBlockInstr (SILValue.arg s.entryArgs.length)],
           by simp, by simp [List.countP_cons, Instr.isNewArgEvent],
           by simp [List.countP_cons, Instr.isErrorMarker]⟩⟩, ?_⟩
        intro hwf
        refine ⟨⟨[⟨s.nextCleanup, .copyBlock (.arg s.entryArgs.length), true⟩], by simp, ?_⟩,
          by simp, ?_, by simp, ?_⟩
        · intro c hc
          rw [List.mem_singleton.mp hc]
          exact ⟨Nat.le_refl _, by simp, rfl⟩
        · have := wf_push_cons s.cleanups s.nextCleanup
            (.copyBlock (.arg s.entryArgs.length)) hwf.1 hwf.2
          exact ⟨this.1, this.2⟩
        · intro id hid
          simp only [Option.some.injEq] at hid
          subst hid
          exact ⟨Nat.le_refl _, by simp⟩
      -- borrowed, no block copy
      case neg =>
        refine ⟨⟨by simp, by simp, by simp, by simp, by simp, by simp,
          ⟨[.newArg (Ty.scalar info) decl], by simp,
           by simp [List.countP_cons, Instr.isNewArgEvent],
           by simp [List.countP_cons, Instr.isErrorMarker]⟩⟩, ?_⟩
        intro hwf
        exact ⟨⟨[], by simp, by simp⟩, Nat.le_refl _, ⟨hwf.1, hwf.2⟩,
          fun _ => ⟨rfl, rfl⟩, fun id hid => by
            simp [ManagedValue.forUnmanaged] at hid⟩
      -- lvalue, with block copy
      case pos =>
        refine ⟨⟨by simp, by simp, by simp, by simp, by simp, by simp,
          ⟨[.newArg (Ty.scalar info) decl, .copyBlockInstr (SILValue.arg s.entryArgs.length)],
           by simp, by simp [List.countP_cons, Instr.isNewArgEvent],
           by simp [List.countP_cons, Instr.isErrorMarker]⟩⟩, ?_⟩
        intro hwf
        refine ⟨⟨[⟨s.nextCleanup, .copyBlock (.arg s.entryArgs.length), true⟩], by simp, ?_⟩,
          by simp, ?_, by simp, ?_⟩
        · intro c hc
          rw [List.mem_singleton.mp hc]
          exact ⟨Nat.le_refl _, by simp, rfl⟩
        · have := wf_push_cons s.cleanups s.nextCleanup
            (.copyBlock (.arg s.entryArgs.length)) hwf.1 hwf.2
          exact ⟨this.1, this.2⟩
        · intro id hid
          simp only [Option.some.injEq] at hid
          subst hid
          exact ⟨Nat.le_refl _, by simp⟩
      -- lvalue, no block copy
      case neg =>
        refine ⟨⟨by simp, by simp, by simp, by simp, by simp, by simp,
          ⟨[.newArg (Ty.scalar info) decl], by simp,
           by simp [List.countP_cons, Instr.isNewArgEvent],
           by simp [List.countP_cons, Instr.isErrorMarker]⟩⟩, ?_⟩
        intro hwf
        exact ⟨⟨[], by simp, by simp⟩, Nat.le_refl _, ⟨hwf.1, hwf.2⟩,
          fun _ => ⟨rfl, rfl⟩, fun id hid => by
            simp [ManagedValue.forLValue] at hid⟩
      -- owned at +1, with block copy
      case pos =>
        refine ⟨⟨by simp, by simp, by simp, by simp, by simp, by simp; omega,
          ⟨[.newArg (Ty.scalar info) decl]
            ++ (if retained then [.retainValue (SILValue.arg s.entryArgs.length)] else [])
            ++ [.copyBlockInstr (SILValue.arg s.entryArgs.length)],
           by cases retained <;> simp,
           by cases retained <;>
             simp [List.countP_cons, List.countP_append, Instr.isNewArgEvent],
           by cases retained <;>
             simp [List.countP_cons, List.countP_append, Instr.isErrorMarker]⟩⟩, ?_⟩
        intro hwf
        refine ⟨⟨[⟨s.nextCleanup, .arg s.entryArgs.length, true⟩,
                  ⟨s.nextCleanup + 1, .copyBlock (.arg s.entryArgs.length), true⟩],
            by simp, ?_⟩, by simp; omega, ?_, by simp, ?_⟩
        · intro c hc
          rcases List.mem_cons.mp hc with hc | hc
          · rw [hc]
            exact ⟨Nat.le_refl _, by simp; omega, by simp [SILValue.isArgBelow]⟩
          · rw [List.mem_singleton.mp hc]
            exact ⟨Nat.le_succ _, by simp, rfl⟩
        · have h1 := wf_push_cons s.cleanups s.nextCleanup
            (.arg s.entryArgs.length) hwf.1 hwf.2
          have h2 := wf_push_cons (s.cleanups ++ [⟨s.nextCleanup, .arg s.entryArgs.length, true⟩])
            (s.nextCleanup + 1) (.copyBlock (.arg s.entryArgs.length)) h1.1 h1.2
          constructor
          · intro c hc
            refine h2.1 c ?_
            simpa [List.append_assoc] using hc
          · have := h2.2
            simpa [List.append_assoc] using this
        · intro id hid
          simp only [Option.some.injEq] at hid
          subst hid
          exact ⟨Nat.le_succ _, by simp⟩
      -- owned at +1, no block copy
      case neg =>
        refine ⟨⟨by simp, by simp, by simp, by simp, by simp, by simp,
          ⟨[.newArg (Ty.scalar info) decl]
            ++ (if retained then [.retainValue (SILValue.arg s.entryArgs.length)] else []),
           by cases retained <;> simp,
           by cases retained <;>
             simp [List.countP_cons, List.countP_append, Instr.isNewArgEvent],
           by cases retained <;>
             simp [List.countP_cons, List.countP_append, Instr.isErrorMarker]⟩⟩, ?_⟩
        intro hwf
        refine ⟨⟨[⟨s.nextCleanup, .arg s.entryArgs.length, true⟩], by simp, ?_⟩,
          by simp, ?_, by simp, ?_⟩
        · intro c hc
          rw [List.mem_singleton.mp hc]
          exact ⟨Nat.le_refl _, by simp, by simp [SILValue.isArgBelow]⟩
        · have := wf_push_cons s.cleanups s.nextCleanup
            (.arg s.entryArgs.length) hwf.1 hwf.2
          exact ⟨this.1, this.2⟩
        · intro id hid
          simp only [Option.some.injEq] at hid
          subst hid
          exact ⟨Nat.le_refl _, by simp⟩

/-- Combined evolution facts of tuple reassembly, relative to the state
`s` at which the whole tuple visit started. -/
theorem visitTupleFinish_facts (cfg : SGConfig) (elts : List Ty)
    (mvs : List ManagedValue) (ps1 : List SILParameterInfo) (s1 : SGState)
    (mv : ManagedValue) (ps' : List SILParameterInfo) (s' : SGState)
    (hfin : visitTupleFinish cfg elts (some (mvs, ps1, s1)) = some (mv, ps', s'))
    (s : SGState) (hwf : s.wf) (hwf1 : s1.wf)
    (hext : ∃ news, s1.cleanups = s.cleanups ++ news ∧
        ∀ c ∈ news, s.nextCleanup ≤ c.id ∧ c.id < s1.nextCleanup ∧
          c.value.isArgBelow s.entryArgs.length = false)
    (hn : s.nextCleanup ≤ s1.nextCleanup)
    (heach : ∀ m ∈ mvs, ∀ id, m.cleanup = some id →
        s.nextCleanup ≤ id ∧ id < s1.nextCleanup)
    (hfrozen : (∀ m ∈ mvs, m.cleanup = none) →
        s1.cleanups = s.cleanups ∧ s1.nextCleanup = s.nextCleanup) :
    (ps' = ps1 ∧ s'.entryArgs = s1.entryArgs ∧ s'.varLocs = s1.varLocs ∧
     s'.classified = s1.classified ∧
     ∃ tail, s'.instrs = s1.instrs ++ tail ∧
       tail.countP Instr.isNewArgEvent = 0 ∧ tail.countP Instr.isErrorMarker = 0) ∧
    CleanupFacts s s' mv := by
  obtain ⟨news1, hsplit, hnews1⟩ := hext
  have hpref : ∀ c ∈ s.cleanups, c.id ∉ focIds mvs := by
    intro c hc hmem
    obtain ⟨m, hm, hmid⟩ := (mem_focIds _ _).mp hmem
    have h1 := heach m hm _ hmid
    have h2 := hwf.1 c hc
    omega
  have hlt1 : ∀ c ∈ s1.cleanups, c.id < s1.nextCleanup := hwf1.1
  unfold visitTupleFinish at hfin
  by_cases h1 : ((Ty.tuple elts).loadable || !cfg.useLoweredAddresses) = true
  · by_cases h2 : ((Ty.tuple elts).loadable
        && mvs.all (fun m => !m.hasCleanup)) = true
    · -- all elements borrowed: one unmanaged tuple, no cleanup change
      simp only [if_pos h1, if_pos h2, Option.some.injEq, Prod.mk.injEq] at hfin
      obtain ⟨rfl, rfl, rfl⟩ := hfin
      have hall : ∀ m ∈ mvs, m.cleanup = none :=
        (all_unmanaged_iff mvs).mp ((Bool.and_eq_true _ _).mp h2).2
      refine ⟨⟨rfl, rfl, rfl, rfl,
        ⟨[.tupleInstr (.tuple (mvs.map (fun m => m.value)))], rfl,
         by simp [List.countP_cons, Instr.isNewArgEvent],
         by simp [List.countP_cons, Instr.isErrorMarker]⟩⟩, ?_⟩
      obtain ⟨hceq, hneq⟩ := hfrozen hall
      refine ⟨⟨[], by simp [hceq], by simp⟩, by simp [hneq], ?_, ?_, ?_⟩
      · exact hwf1
      · intro _
        exact ⟨hceq, hneq⟩
      · intro id hid
        simp at hid
    · -- register-passable at +1: forward or copy, one fresh cleanup
      simp only [if_pos h1, if_neg h2] at hfin
      rw [forwardOrCopyAll_spec mvs s1 hlt1] at hfin
      simp only [emitManagedRValueWithCleanup, pushCleanup, Option.some.injEq,
        Prod.mk.injEq] at hfin
      obtain ⟨rfl, rfl, rfl⟩ := hfin
      refine ⟨⟨rfl, rfl, rfl, rfl,
        ⟨copiedInstrs mvs ++ [.tupleInstr (.tuple (mvs.map forwardedOrCopied))],
         by simp, by simp [List.countP_append, (copiedInstrs_counts mvs).1,
           List.countP_cons, Instr.isNewArgEvent],
         by simp [List.countP_append, (copiedInstrs_counts mvs).2,
           List.countP_cons, Instr.isErrorMarker]⟩⟩, ?_⟩
      have hmapsplit : s1.cleanups.map (deactivateAll (focIds mvs))
          = s.cleanups ++ news1.map (deactivateAll (focIds mvs)) := by
        rw [hsplit, List.map_append, map_deactivateAll_not_mem _ _ hpref]
      have hcop := copiedEntries_facts mvs s1.nextCleanup
      refine ⟨⟨news1.map (deactivateAll (focIds mvs))
          ++ copiedEntries s1.nextCleanup mvs
          ++ [⟨s1.nextCleanup + numCopies mvs,
               .tuple (mvs.map forwardedOrCopied), true⟩],
        by simp [hmapsplit], ?_⟩, by simp; omega, ?_, ?_, ?_⟩
      · intro c hc
        simp only [List.append_assoc, List.mem_append, List.mem_singleton] at hc
        rcases hc with hc | hc | hc
        · obtain ⟨c0, hc0, rfl⟩ := List.mem_map.mp hc
          obtain ⟨ha, hb, hv⟩ := hnews1 c0 hc0
          refine ⟨by rw [deactivateAll_id]; exact ha, ?_, ?_⟩
          · rw [deactivateAll_id]
            simp
            omega
          · rw [deactivateAll_value]
            exact hv
        · obtain ⟨ha, hb, _, hv⟩ := hcop.1 c hc
          exact ⟨by omega, by simp; omega, hv _⟩
        · rw [hc]
          exact ⟨by simp; omega, by simp, rfl⟩
      · constructor
        · intro c hc
          simp only [List.mem_append, List.mem_singleton] at hc
          show c.id < s1.nextCleanup + numCopies mvs + 1
          rcases hc with (hc | hc) | hc
          · obtain ⟨c0, hc0, rfl⟩ := List.mem_map.mp hc
            rw [deactivateAll_id]
            have := hlt1 c0 hc0
            omega
          · have := (hcop.1 c hc).2.1
            omega
          · rw [hc]
            simp
        · simp only [List.map_append]
          refine List.Nodup.append (List.Nodup.append ?_ hcop.2 ?_) (by simp) ?_
          · rw [ids_map_deactivateAll]
            exact hwf1.2
          · intro a ha hb
            rw [ids_map_deactivateAll] at ha
            obtain ⟨c0, hc0, rfl⟩ := List.mem_map.mp ha
            obtain ⟨c1, hc1, hcid⟩ := List.mem_map.mp hb
            have hx := hlt1 c0 hc0
            have hy := (hcop.1 c1 hc1).1
            omega
          · intro a ha hb
            have hb' : a = s1.nextCleanup + numCopies mvs := by
              simpa using hb
            rcases List.mem_append.mp ha with ha | ha
            · rw [ids_map_deactivateAll] at ha
              obtain ⟨c0, hc0, hcid⟩ := List.mem_map.mp ha
              have := hlt1 c0 hc0
              omega
            · obtain ⟨c1, hc1, hcid⟩ := List.mem_map.mp ha
              have := (hcop.1 c1 hc1).2.1
              omega
      · intro hnone
        simp at hnone
      · intro id hid
        simp only [Option.some.injEq] at hid
        subst hid
        refine ⟨by omega, by simp⟩
  · -- address-only under lowered addresses: write into a fresh buffer
    simp only [if_neg h1, emitTemporaryAllocation] at hfin
    rw [writeElems_spec mvs (SILValue.tempAlloc s1.nextTemp) 0] at hfin
    simp only [emitManagedRValueWithCleanup, pushCleanup, Option.some.injEq,
      Prod.mk.injEq] at hfin
    obtain ⟨rfl, rfl, rfl⟩ := hfin
    refine ⟨⟨rfl, rfl, rfl, rfl,
      ⟨.allocStack s1.nextTemp :: bufferWrites (.tempAlloc s1.nextTemp) 0 mvs,
       by simp, by simp [List.countP_cons, Instr.isNewArgEvent,
         (bufferWrites_counts mvs _ 0).1],
       by simp [List.countP_cons, Instr.isErrorMarker,
         (bufferWrites_counts mvs _ 0).2]⟩⟩, ?_⟩
    have hmapsplit : s1.cleanups.map (deactivateAll (focIds mvs))
        = s.cleanups ++ news1.map (deactivateAll (focIds mvs)) := by
      rw [hsplit, List.map_append, map_deactivateAll_not_mem _ _ hpref]
    refine ⟨⟨news1.map (deactivateAll (focIds mvs))
        ++ [⟨s1.nextCleanup, .tempAlloc s1.nextTemp, true⟩],
      by simp [hmapsplit], ?_⟩, by simp; omega, ?_, ?_, ?_⟩
    · intro c hc
      simp only [List.mem_append, List.mem_singleton] at hc
      rcases hc with hc | hc
      · obtain ⟨c0, hc0, rfl⟩ := List.mem_map.mp hc
        obtain ⟨ha, hb, hv⟩ := hnews1 c0 hc0
        refine ⟨by rw [deactivateAll_id]; exact ha, ?_, ?_⟩
        · rw [deactivateAll_id]
          simp
          omega
        · rw [deactivateAll_value]
          exact hv
      · rw [hc]
        exact ⟨hn, by simp, rfl⟩
    · have hlt2 : ∀ c ∈ s1.cleanups.map (deactivateAll (focIds mvs)),
          c.id < s1.nextCleanup := by
        intro c hc
        obtain ⟨c0, hc0, rfl⟩ := List.mem_map.mp hc
        rw [deactivateAll_id]
        exact hlt1 c0 hc0
      have hnd2 : ((s1.cleanups.map (deactivateAll (focIds mvs))).map
          CleanupRec.id).Nodup := by
        rw [ids_map_deactivateAll]
        exact hwf1.2
      have := wf_push_cons _ s1.nextCleanup (.tempAlloc s1.nextTemp) hlt2 hnd2
      exact ⟨this.1, this.2⟩
    · intro hnone
      simp at hnone
    · intro id hid
      simp only [Option.some.injEq] at hid
      subst hid
      exact ⟨hn, by simp⟩

/-- Evolution facts of the destructurer, proved by mutual induction over
the type tree: descriptor consumption, argument materialization,
classification trace, and cleanup-stack discipline. -/
theorem visit_facts (cfg : SGConfig) (fa : Bool) (decl : Option Nat) :
    (∀ (t : Ty) (ps : List SILParameterInfo) (s : SGState)
        (mv : ManagedValue) (ps' : List SILParameterInfo) (s' : SGState),
      visit cfg fa decl t ps s = some (mv, ps', s') → s.wf →
        VisitBasic decl t.leaves ps ps' s s' ∧ CleanupFacts s s' mv) ∧
    (∀ (ts : List Ty) (ps : List SILParameterInfo) (s : SGState)
        (mvs : List ManagedValue) (ps' : List SILParameterInfo) (s' : SGState),
      visitList cfg fa decl ts ps s = some (mvs, ps', s') → s.wf →
        VisitBasic decl (Ty.leavesList ts) ps ps' s s' ∧
        CleanupListFacts s s' mvs) := by
  refine visit.mutual_induct cfg fa decl
    (fun t ps s => ∀ mv ps' s', visit cfg fa decl t ps s = some (mv, ps', s') →
      s.wf → VisitBasic decl t.leaves ps ps' s s' ∧ CleanupFacts s s' mv)
    (fun ts ps s => ∀ mvs ps' s',
      visitList cfg fa decl ts ps s = some (mvs, ps', s') →
      s.wf → VisitBasic decl (Ty.leavesList ts) ps ps' s s' ∧
        CleanupListFacts s s' mvs)
    ?_ ?_ ?_ ?_ ?_ ?_
  · -- scalar leaf
    intro info ps s mv ps' s' h hwf
    rw [show visit cfg fa decl (Ty.scalar info) ps s
      = visitType fa decl info ps s from by simp [visit]] at h
    have := visitType_facts fa decl info ps s mv ps' s' h
    exact ⟨this.1, this.2 hwf⟩
  · -- tuple node
    intro elts ps s ih mv ps' s' h hwf
    rw [show (Ty.tuple elts).leaves = Ty.leavesList elts from by simp [Ty.leaves]]
    rw [show visit cfg fa decl (Ty.tuple elts) ps s
      = visitTupleFinish cfg elts (visitList cfg fa decl elts ps s) from by
        simp [visit]] at h
    cases hl : visitList cfg fa decl elts ps s with
    | none =>
      rw [hl] at h
      simp [visitTupleFinish] at h
    | some r =>
      obtain ⟨mvs, ps1, s1⟩ := r
      rw [hl] at h
      obtain ⟨hb, hcf⟩ := ih mvs ps1 s1 hl hwf
      obtain ⟨hevo, hn, hwf1, hfroz, heach⟩ := hcf
      obtain ⟨hpart1, hcfout⟩ := visitTupleFinish_facts cfg elts mvs ps1 s1
        mv ps' s' h s hwf hwf1 hevo hn heach hfroz
      obtain ⟨hps, hentry, hvl, hcl, tail2, hi2, hc2a, hc2b⟩ := hpart1
      subst hps
      obtain ⟨hd1, hl1, he1, hv1, hc1, hn1, tail1, hi1, hna1, hm1⟩ := hb
      refine ⟨⟨hd1, hl1, by rw [hentry, he1], by rw [hvl, hv1],
        by rw [hcl, hc1], hcfout.2.1, tail1 ++ tail2, ?_, ?_, ?_⟩, hcfout⟩
      · rw [hi2, hi1, List.append_assoc]
      · simp [List.countP_append, hna1, hc2a]
      · simp [List.countP_append, hm1, hc2b]
  · -- empty element list
    intro ps s mvs ps' s' h hwf
    simp only [visitList, Option.some.injEq, Prod.mk.injEq] at h
    obtain ⟨rfl, rfl, rfl⟩ := h
    refine ⟨visitBasic_rfl decl ps s, ⟨[], by simp, by simp⟩, Nat.le_refl _,
      hwf, fun _ => ⟨rfl, rfl⟩, ?_⟩
    intro m hm
    exact absurd hm (List.not_mem_nil m)
  · -- cons, head fails (vacuous)
    intro t ts ps s hnone _ mvs ps' s' h
    rw [show visitList cfg fa decl (t :: ts) ps s = none from by
      simp [visitList, hnone]] at h
    exact Option.noConfusion h
  · -- cons, tail fails (vacuous)
    intro t ts ps s mv0 ps1 s1 hveq hlnone _ _ mvs ps' s' h
    rw [show visitList cfg fa decl (t :: ts) ps s = none from by
      simp [visitList, hveq, hlnone]] at h
    exact Option.noConfusion h
  · -- cons, both succeed
    intro t ts ps s mv0 ps1 s1 hveq elements ps2 s2 hleq ih1 ih2 mvs ps' s' h hwf
    rw [show visitList cfg fa decl (t :: ts) ps s
      = some (mv0 :: elements, ps2, s2) from by simp [visitList, hveq, hleq]] at h
    simp only [Option.some.injEq, Prod.mk.injEq] at h
    obtain ⟨rfl, rfl, rfl⟩ := h
    obtain ⟨hb1, hcf1⟩ := ih1 mv0 ps1 s1 hveq hwf
    obtain ⟨hevo1, hn1, hwf1, hfroz1, hbnd1⟩ := hcf1
    obtain ⟨hb2, hcf2⟩ := ih2 elements ps2 s2 hleq hwf1
    obtain ⟨hevo2, hn2, hwf2, hfroz2, hbnd2⟩ := hcf2
    have hentlen : s.entryArgs.length ≤ s1.entryArgs.length := by
      obtain ⟨_, _, he1, _⟩ := hb1
      rw [he1]
      simp
    have hbasic := visitBasic_trans decl t.leaves (Ty.leavesList ts)
      ps ps1 ps2 s s1 s2 hb1 hb2
    refine ⟨by rw [show Ty.leavesList (t :: ts) = t.leaves ++ Ty.leavesList ts
      from by simp [Ty.leavesList]]; exact hbasic, ?_, Nat.le_trans hn1 hn2,
      hwf2, ?_, ?_⟩
    · obtain ⟨n1, hs1, hn1f⟩ := hevo1
      obtain ⟨n2, hs2, hn2f⟩ := hevo2
      refine ⟨n1 ++ n2, by rw [hs2, hs1, List.append_assoc], ?_⟩
      intro c hc
      rcases List.mem_append.mp hc with hc | hc
      · obtain ⟨ha, hbb, hv⟩ := hn1f c hc
        exact ⟨ha, by omega, hv⟩
      · obtain ⟨ha, hbb, hv⟩ := hn2f c hc
        exact ⟨by omega, hbb, isArgBelow_mono _ _ _ hentlen hv⟩
    · intro hall
      have hh := hfroz1 (hall mv0 (List.mem_cons_self mv0 elements))
      have ht := hfroz2 (fun m hm => hall m (List.mem_cons_of_mem mv0 hm))
      exact ⟨by rw [ht.1, hh.1], by rw [ht.2, hh.2]⟩
    · intro m hm id hid
      rcases List.mem_cons.mp hm with hm | hm
      · subst hm
        have := hbnd1 id hid
        exact ⟨this.1, by omega⟩
      · have := hbnd2 m hm id hid
        exact ⟨by omega, this.2⟩

theorem visitTupleFinish_isSome (cfg : SGConfig) (elts : List Ty)
    (r : List ManagedValue × List SILParameterInfo × SGState) :
    (visitTupleFinish cfg elts (some r)).isSome := by
  obtain ⟨mvs, ps1, s1⟩ := r
  simp only [visitTupleFinish]
  split
  · split <;> simp
  · simp

/-- Success of the destructurer: with enough descriptors and no reserved
convention among them, lowering a type always succeeds. -/
theorem visit_success (cfg : SGConfig) (fa : Bool) (decl : Option Nat) :
    (∀ (t : Ty) (ps : List SILParameterInfo) (s : SGState), s.wf →
      t.leaves.length ≤ ps.length →
      (∀ p ∈ ps, p.convention ≠ .Indirect_In_Constant) →
      (visit cfg fa decl t ps s).isSome) ∧
    (∀ (ts : List Ty) (ps : List SILParameterInfo) (s : SGState), s.wf →
      (Ty.leavesList ts).length ≤ ps.length →
      (∀ p ∈ ps, p.convention ≠ .Indirect_In_Constant) →
      (visitList cfg fa decl ts ps s).isSome) := by
  refine visit.mutual_induct cfg fa decl
    (fun t ps s => s.wf → t.leaves.length ≤ ps.length →
      (∀ p ∈ ps, p.convention ≠ .Indirect_In_Constant) →
      (visit cfg fa decl t ps s).isSome)
    (fun ts ps s => s.wf → (Ty.leavesList ts).length ≤ ps.length →
      (∀ p ∈ ps, p.convention ≠ .Indirect_In_Constant) →
      (visitList cfg fa decl ts ps s).isSome)
    ?_ ?_ ?_ ?_ ?_ ?_
  · -- scalar leaf
    intro info ps s _ hlen hcv
    match ps with
    | [] => simp [Ty.leaves] at hlen
    | p :: rest =>
      rw [show visit cfg fa decl (Ty.scalar info) (p :: rest) s
        = visitType fa decl info (p :: rest) s from by simp [visit]]
      unfold visitType
      simp only [createFunctionArgument]
      cases hg : getManagedValue (SILValue.arg s.entryArgs.length) (Ty.scalar info) p
          { s with entryArgs := s.entryArgs ++ [⟨Ty.scalar info, decl⟩],
                   instrs := s.instrs ++ [.newArg (Ty.scalar info) decl] } with
      | none =>
        have := getManagedValue_some (SILValue.arg s.entryArgs.length)
          (Ty.scalar info) p
          { s with entryArgs := s.entryArgs ++ [⟨Ty.scalar info, decl⟩],
                   instrs := s.instrs ++ [.newArg (Ty.scalar info) decl] }
          (hcv p (List.mem_cons_self p rest))
        rw [hg] at this
        simp at this
      | some ms =>
        obtain ⟨mv0, s0⟩ := ms
        simp only [hg]
        split <;> simp
  · -- tuple node
    intro elts ps s ih hwf hlen hcv
    rw [show visit cfg fa decl (Ty.tuple elts) ps s
      = visitTupleFinish cfg elts (visitList cfg fa decl elts ps s) from by
        simp [visit]]
    have hlen2 : (Ty.leavesList elts).length ≤ ps.length := by
      simpa [Ty.leaves] using hlen
    have := ih hwf hlen2 hcv
    cases hl : visitList cfg fa decl elts ps s with
    | none =>
      rw [hl] at this
      simp at this
    | some r => exact visitTupleFinish_isSome cfg elts r
  · -- empty element list
    intro ps s _ _ _
    simp [visitList]
  · -- cons, head fails (impossible)
    intro t ts ps s hnone ih hwf hlen hcv
    have hlen1 : t.leaves.length ≤ ps.length := by
      rw [show Ty.leavesList (t :: ts) = t.leaves ++ Ty.leavesList ts
        from by simp [Ty.leavesList]] at hlen
      simp only [List.length_append] at hlen
      omega
    have := ih hwf hlen1 hcv
    rw [hnone] at this
    simp at this
  · -- cons, tail fails (impossible)
    intro t ts ps s mv0 ps1 s1 hveq hlnone ih1 ih2 hwf hlen hcv
    obtain ⟨hb1, hcf1⟩ := (visit_facts cfg fa decl).1 t ps s mv0 ps1 s1 hveq hwf
    have hlen2 : (Ty.leavesList ts).length ≤ ps1.length := by
      rw [show Ty.leavesList (t :: ts) = t.leaves ++ Ty.leavesList ts
        from by simp [Ty.leavesList]] at hlen
      simp only [List.length_append] at hlen
      rw [hb1.1, List.length_drop]
      omega
    have hcv2 : ∀ p ∈ ps1, p.convention ≠ .Indirect_In_Constant := by
      intro p hp
      refine hcv p ?_
      rw [hb1.1] at hp
      exact List.drop_subset _ ps hp
    have := ih2 hcf1.2.2.1 hlen2 hcv2
    rw [hlnone] at this
    simp at this
  · -- cons, both succeed
    intro t ts ps s mv0 ps1 s1 hveq elements ps2 s2 hleq _ _ _ _ _
    rw [show visitList cfg fa decl (t :: ts) ps s
      = some (mv0 :: elements, ps2, s2) from by simp [visitList, hveq, hleq]]
    simp

theorem deactivateAll_mem (ids : List Nat) (c : CleanupRec) (h : c.id ∈ ids) :
    (deactivateAll ids c).active = false := by
  unfold deactivateAll
  rw [if_pos h]

/-! Claim theorems. -/

/-- C1: For every scalar leaf parameter, resolving its convention yields a
managed value as follows: a Guaranteed or indirect-guaranteed convention
yields an unmanaged value with no cleanup; an Unowned convention yields a
value that is immediately retained with a release cleanup attached; an
Owned or indirect-in convention yields the incoming value with a release
cleanup attached and no extra retain; an InOut or InoutAliasable
convention yields the incoming address as an lvalue with no cleanup. -/
theorem C1_ownership_convention_resolution (arg : SILValue) (t : Ty) (s : SGState) :
    (getManagedValue arg t ⟨.Direct_Guaranteed⟩ s
        = some (ManagedValue.forUnmanaged arg, s) ∧
     getManagedValue arg t ⟨.Indirect_In_Guaranteed⟩ s
        = some (ManagedValue.forUnmanaged arg, s)) ∧
    (getManagedValue arg t ⟨.Direct_Unowned⟩ s =
      some (⟨arg, some s.nextCleanup, false⟩,
        { s with instrs := s.instrs ++ [.retainValue arg],
                 cleanups := s.cleanups ++ [⟨s.nextCleanup, arg, true⟩],
                 nextCleanup := s.nextCleanup + 1 })) ∧
    (getManagedValue arg t ⟨.Direct_Owned⟩ s =
      some (⟨arg, some s.nextCleanup, false⟩,
        { s with cleanups := s.cleanups ++ [⟨s.nextCleanup, arg, true⟩],
                 nextCleanup := s.nextCleanup + 1 }) ∧
     getManagedValue arg t ⟨.Indirect_In⟩ s =
      some (⟨arg, some s.nextCleanup, false⟩,
        { s with cleanups := s.cleanups ++ [⟨s.nextCleanup, arg, true⟩],
                 nextCleanup := s.nextCleanup + 1 })) ∧
    (getManagedValue arg t ⟨.Indirect_Inout⟩ s
        = some (ManagedValue.forLValue arg, s) ∧
     getManagedValue arg t ⟨.Indirect_InoutAliasable⟩ s
        = some (ManagedValue.forLValue arg, s)) :=
  ⟨⟨rfl, rfl⟩, rfl, ⟨rfl, rfl⟩, ⟨rfl, rfl⟩⟩

/-- C2: For any declared parameter-type tree whose flattened leaf count
equals the length of the function's parameter-convention sequence, the
type destructurer consumes exactly one convention descriptor per scalar
leaf, in depth-first left-to-right order over the type tree, with none
left over and none missing (witnessed by the ghost classification trace
pairing the depth-first leaves with the conventions in order). -/
theorem C2_leaf_convention_parity (cfg : SGConfig) (fa : Bool)
    (decl : Option Nat) (t : Ty) (ps : List SILParameterInfo) (s : SGState)
    (hwf : s.wf) (hlen : t.leaves.length = ps.length)
    (hcv : ∀ p ∈ ps, p.convention ≠ .Indirect_In_Constant) :
    ∃ mv s', visit cfg fa decl t ps s = some (mv, [], s') ∧
      s'.classified = s.classified
        ++ t.leaves.zip (ps.map SILParameterInfo.convention) ∧
      s'.entryArgs = s.entryArgs
        ++ t.leaves.map (fun i => (⟨Ty.scalar i, decl⟩ : EntryArg)) := by
  have hsome := (visit_success cfg fa decl).1 t ps s hwf (Nat.le_of_eq hlen) hcv
  cases hv : visit cfg fa decl t ps s with
  | none =>
    rw [hv] at hsome
    simp at hsome
  | some r =>
    obtain ⟨mv, ps', s'⟩ := r
    obtain ⟨hb, _⟩ := (visit_facts cfg fa decl).1 t ps s mv ps' s' hv hwf
    obtain ⟨hd, _, hentry, _, hclass, _⟩ := hb
    refine ⟨mv, s', ?_, hclass, hentry⟩
    have hnil : ps' = [] := by
      rw [hd, hlen, List.drop_length]
    rw [← hnil]

/-- C2 witness: a two-leaf tuple against a two-descriptor sequence. -/
theorem C2_leaf_convention_parity_witness :
    SGState.init.wf ∧
    (Ty.tuple [Ty.scalar {}, Ty.scalar {}]).leaves.length
      = [(⟨.Direct_Owned⟩ : SILParameterInfo), ⟨.Direct_Guaranteed⟩].length ∧
    (visit {} true none (Ty.tuple [Ty.scalar {}, Ty.scalar {}])
      [⟨.Direct_Owned⟩, ⟨.Direct_Guaranteed⟩] SGState.init).isSome := by
  refine ⟨by decide, by decide, ?_⟩
  obtain ⟨mv, s', h, _, _⟩ := C2_leaf_convention_parity {} true none
    (Ty.tuple [Ty.scalar {}, Ty.scalar {}])
    [⟨.Direct_Owned⟩, ⟨.Direct_Guaranteed⟩] SGState.init
    (by decide) (by decide) (by decide)
  rw [h]
  rfl

/-- C3: When a tuple parameter type is destructured and reassembled: if
its lowering is register-passable (loadable) and no element carries a
cleanup, the result is a single unmanaged tuple with zero new cleanups;
otherwise each element is forwarded (if it owned a cleanup) or defensively
copied (if borrowed) into the rebuilt aggregate — a tuple value in the
register-passable case, a freshly allocated stack buffer written
element-by-element at matching offsets in the address-only case — and the
result carries exactly one new release cleanup, with no element
individually retaining its original cleanup afterward. -/
theorem C3_tuple_reassembly (cfg : SGConfig) (decl : Option Nat)
    (elts : List Ty) (ps ps1 : List SILParameterInfo) (s s1 : SGState)
    (mvs : List ManagedValue)
    (hUL : cfg.useLoweredAddresses = true) (hwf : s.wf)
    (hl : visitList cfg true decl elts ps s = some (mvs, ps1, s1)) :
    (((Ty.tuple elts).loadable = true ∧ ∀ m ∈ mvs, m.cleanup = none) →
      visit cfg true decl (Ty.tuple elts) ps s
        = some (ManagedValue.forUnmanaged (.tuple (mvs.map (fun m => m.value))),
            ps1,
            { s1 with instrs := s1.instrs
                ++ [.tupleInstr (.tuple (mvs.map (fun m => m.value)))] }) ∧
      s1.cleanups = s.cleanups) ∧
    (¬((Ty.tuple elts).loadable = true ∧ ∀ m ∈ mvs, m.cleanup = none) →
      ∃ cid s',
        visit cfg true decl (Ty.tuple elts) ps s
          = some (⟨(if (Ty.tuple elts).loadable = true
                    then SILValue.tuple (mvs.map forwardedOrCopied)
                    else SILValue.tempAlloc s1.nextTemp), some cid, false⟩,
              ps1, s') ∧
        s1.nextCleanup ≤ cid ∧
        (∃ c ∈ s'.cleanups, c.id = cid ∧ c.active = true ∧
          c.value = (if (Ty.tuple elts).loadable = true
                     then SILValue.tuple (mvs.map forwardedOrCopied)
                     else SILValue.tempAlloc s1.nextTemp)) ∧
        (∀ m ∈ mvs, ∀ id, m.cleanup = some id →
          ∀ c ∈ s'.cleanups, c.id = id → c.active = false) ∧
        ((Ty.tuple elts).loadable = false →
          s'.instrs = s1.instrs ++ .allocStack s1.nextTemp
            :: bufferWrites (.tempAlloc s1.nextTemp) 0 mvs)) := by
  obtain ⟨_, hcf⟩ := (visit_facts cfg true decl).2 elts ps s mvs ps1 s1 hl hwf
  obtain ⟨hevo, hn, hwf1, hfroz, heach⟩ := hcf
  have hvis : visit cfg true decl (Ty.tuple elts) ps s
      = visitTupleFinish cfg elts (some (mvs, ps1, s1)) := by
    rw [show visit cfg true decl (Ty.tuple elts) ps s
      = visitTupleFinish cfg elts (visitList cfg true decl elts ps s) from by
        simp [visit], hl]
  have hlt1 : ∀ c ∈ s1.cleanups, c.id < s1.nextCleanup := hwf1.1
  constructor
  · intro ⟨hload, hall⟩
    have hcang : ((Ty.tuple elts).loadable
        && mvs.all (fun m => !m.hasCleanup)) = true := by
      rw [hload, (all_unmanaged_iff mvs).mpr hall]
      rfl
    refine ⟨?_, (hfroz hall).1⟩
    rw [hvis]
    simp only [visitTupleFinish, if_pos (by rw [hload]; rfl : ((Ty.tuple elts).loadable
      || !cfg.useLoweredAddresses) = true), if_pos hcang]
  · intro hnot
    have hcang : ((Ty.tuple elts).loadable
        && mvs.all (fun m => !m.hasCleanup)) = false := by
      by_contra hx
      have : ((Ty.tuple elts).loadable
          && mvs.all (fun m => !m.hasCleanup)) = true := by
        revert hx
        cases ((Ty.tuple elts).loadable && mvs.all (fun m => !m.hasCleanup)) <;> simp
      rw [Bool.and_eq_true] at this
      exact hnot ⟨this.1, (all_unmanaged_iff mvs).mp this.2⟩
    cases hload : (Ty.tuple elts).loadable with
    | true =>
      rw [hvis]
      simp only [visitTupleFinish, if_pos (by rw [hload]; rfl : ((Ty.tuple elts).loadable
        || !cfg.useLoweredAddresses) = true), if_neg (by rw [hcang]; simp :
        ¬((Ty.tuple elts).loadable && mvs.all (fun m => !m.hasCleanup)) = true)]
      rw [forwardOrCopyAll_spec mvs s1 hlt1]
      simp only [emitManagedRValueWithCleanup, pushCleanup, hload,
        eq_self_iff_true, if_true]
      refine ⟨s1.nextCleanup + numCopies mvs, _, rfl, by omega, ?_, ?_, by simp⟩
      · refine ⟨⟨s1.nextCleanup + numCopies mvs,
          .tuple (mvs.map forwardedOrCopied), true⟩, ?_, rfl, rfl, rfl⟩
        simp
      · intro m hm id hid c hc hcid
        simp only [List.mem_append, List.mem_singleton] at hc
        have hbound := heach m hm id hid
        rcases hc with (hc | hc) | hc
        · obtain ⟨c0, hc0, rfl⟩ := List.mem_map.mp hc
          refine deactivateAll_mem _ _ ?_
          rw [deactivateAll_id] at hcid
          rw [hcid]
          exact (mem_focIds mvs id).mpr ⟨m, hm, hid⟩
        · exact ((copiedEntries_facts mvs s1.nextCleanup).1 c hc).2.2.1
        · rw [hc] at hcid
          simp at hcid
          omega
    | false =>
      have houter : ((Ty.tuple elts).loadable || !cfg.useLoweredAddresses) = false := by
        rw [hload, hUL]
        rfl
      rw [hvis]
      simp only [visitTupleFinish, if_neg (by rw [houter]; simp :
        ¬((Ty.tuple elts).loadable || !cfg.useLoweredAddresses) = true)]
      simp only [emitTemporaryAllocation]
      rw [writeElems_spec mvs (SILValue.tempAlloc s1.nextTemp) 0]
      simp only [emitManagedRValueWithCleanup, pushCleanup, hload,
        Bool.false_eq_true, if_false]
      refine ⟨s1.nextCleanup, _, rfl, Nat.le_refl _, ?_, ?_, fun _ => by simp⟩
      · refine ⟨⟨s1.nextCleanup, .tempAlloc s1.nextTemp, true⟩, ?_, rfl, rfl, by simp⟩
        simp
      · intro m hm id hid c hc hcid
        simp only [List.mem_append, List.mem_singleton] at hc
        have hbound := heach m hm id hid
        rcases hc with hc | hc
        · obtain ⟨c0, hc0, rfl⟩ := List.mem_map.mp hc
          refine deactivateAll_mem _ _ ?_
          rw [deactivateAll_id] at hcid
          rw [hcid]
          exact (mem_focIds mvs id).mpr ⟨m, hm, hid⟩
        · rw [hc] at hcid
          simp at hcid
          omega

/-- C3 witness: a one-element tuple whose element arrives owned. -/
theorem C3_tuple_reassembly_witness :
    ({} : SGConfig).useLoweredAddresses = true ∧ SGState.init.wf ∧
    (visit {} true none (Ty.tuple [Ty.scalar {}])
      [⟨.Direct_Owned⟩] SGState.init).isSome := by
  refine ⟨rfl, by decide, ?_⟩
  have h := C3_tuple_reassembly {} none [Ty.scalar {}]
    [⟨.Direct_Owned⟩] _ SGState.init _ _ rfl (by decide) rfl
  obtain ⟨cid, s', heq, _⟩ := h.2 (by
    intro ⟨_, hall⟩
    have := hall ⟨SILValue.arg 0, some 0, false⟩ (by
      show _ ∈ [(⟨SILValue.arg 0, some 0, false⟩ : ManagedValue)]
      simp)
    simp at this)
  rw [heq]
  rfl

theorem range_map_add (base n1 n2 : Nat) :
    (List.range (n1 + n2)).map (fun k => SILValue.arg (base + k))
      = (List.range n1).map (fun k => SILValue.arg (base + k))
        ++ (List.range n2).map (fun k => SILValue.arg (base + n1 + k)) := by
  rw [List.range_add, List.map_append, List.map_map]
  congr 1
  apply List.map_congr_left
  intro k _
  simp [Function.comp, Nat.add_assoc]

/-- Exact effect of the forwarding-path `makeArgument`: one raw argument
per depth-first leaf, appended to the output vector; no descriptor
consumption, no classification, no cleanups, no bindings. -/
theorem Forwarding.makeArgument_spec :
    (∀ (t : Ty) (d : Option Nat) (args : List SILValue) (s : SGState),
      Forwarding.makeArgument t d args s
        = (args ++ (List.range t.leaves.length).map
              (fun k => SILValue.arg (s.entryArgs.length + k)),
           { s with
             entryArgs := s.entryArgs
               ++ t.leaves.map (fun i => (⟨Ty.scalar i, d⟩ : EntryArg)),
             instrs := s.instrs
               ++ t.leaves.map (fun i => Instr.newArg (Ty.scalar i) d) })) ∧
    (∀ (ts : List Ty) (d : Option Nat) (args : List SILValue) (s : SGState),
      Forwarding.makeArgumentList ts d args s
        = (args ++ (List.range (Ty.leavesList ts).length).map
              (fun k => SILValue.arg (s.entryArgs.length + k)),
           { s with
             entryArgs := s.entryArgs
               ++ (Ty.leavesList ts).map (fun i => (⟨Ty.scalar i, d⟩ : EntryArg)),
             instrs := s.instrs
               ++ (Ty.leavesList ts).map (fun i => Instr.newArg (Ty.scalar i) d) })) := by
  refine Forwarding.makeArgument.mutual_induct
    (fun t d args s => Forwarding.makeArgument t d args s
      = (args ++ (List.range t.leaves.length).map
            (fun k => SILValue.arg (s.entryArgs.length + k)),
         { s with
           entryArgs := s.entryArgs
             ++ t.leaves.map (fun i => (⟨Ty.scalar i, d⟩ : EntryArg)),
           instrs := s.instrs
             ++ t.leaves.map (fun i => Instr.newArg (Ty.scalar i) d) }))
    (fun ts d args s => Forwarding.makeArgumentList ts d args s
      = (args ++ (List.range (Ty.leavesList ts).length).map
            (fun k => SILValue.arg (s.entryArgs.length + k)),
         { s with
           entryArgs := s.entryArgs
             ++ (Ty.leavesList ts).map (fun i => (⟨Ty.scalar i, d⟩ : EntryArg)),
           instrs := s.instrs
             ++ (Ty.leavesList ts).map (fun i => Instr.newArg (Ty.scalar i) d) }))
    ?_ ?_ ?_ ?_
  · intro elts d args s ih
    rw [show Forwarding.makeArgument (Ty.tuple elts) d args s
      = Forwarding.makeArgumentList elts d args s from by
        simp [Forwarding.makeArgument]]
    rw [ih]
    rw [show (Ty.tuple elts).leaves = Ty.leavesList elts from by simp [Ty.leaves]]
  · intro info d args s
    simp [Forwarding.makeArgument, createFunctionArgument, Ty.leaves,
      List.range_succ]
  · intro d args s
    simp [Forwarding.makeArgumentList, Ty.leavesList]
  · intro t ts d args s args1 s1 heq ih1 ih2
    have hstep : Forwarding.makeArgumentList (t :: ts) d args s
        = Forwarding.makeArgumentList ts d args1 s1 := by
      simp only [Forwarding.makeArgumentList, heq]
    rw [heq] at ih1
    simp only [Prod.mk.injEq] at ih1
    obtain ⟨ha, hs⟩ := ih1
    subst ha
    subst hs
    rw [hstep, ih2]
    rw [show Ty.leavesList (t :: ts) = t.leaves ++ Ty.leavesList ts from by
      simp [Ty.leavesList]]
    simp only [List.length_append]
    rw [range_map_add]
    simp [List.append_assoc, Nat.add_assoc, List.length_map]

/-- C9: For every parameter list it is given,
`bindParametersForForwarding` creates exactly one entry-block function
argument per scalar leaf of each parameter's tuple-flattened type, in
depth-first declaration order, and appends each raw value to the output
vector; this path consumes no parameter-convention descriptors, performs
no ownership classification (the classification trace is untouched), and
registers no cleanups for any argument it creates (the cleanup stack and
the variable table are untouched). -/
theorem C9_bind_parameters_for_forwarding (params : List ParamDecl) :
    ∀ (args : List SILValue) (s : SGState),
    bindParametersForForwarding params args s
      = (args ++ (List.range (forwardingEntries params).length).map
            (fun k => SILValue.arg (s.entryArgs.length + k)),
         { s with
           entryArgs := s.entryArgs ++ forwardingEntries params,
           instrs := s.instrs ++ (forwardingEntries params).map
             (fun e => Instr.newArg e.ty e.decl) }) := by
  induction params with
  | nil =>
    intro args s
    simp [bindParametersForForwarding, forwardingEntries]
  | cons pd pds ih =>
    intro args s
    rw [show bindParametersForForwarding (pd :: pds) args s
      = bindParametersForForwarding pds
          (Forwarding.makeArgument pd.ty (some pd.id) args s).1
          (Forwarding.makeArgument pd.ty (some pd.id) args s).2 from by
        rw [bindParametersForForwarding]]
    rw [Forwarding.makeArgument_spec.1]
    simp only [ih]
    rw [show forwardingEntries (pd :: pds)
      = pd.ty.leaves.map (fun i => (⟨Ty.scalar i, some pd.id⟩ : EntryArg))
        ++ forwardingEntries pds from rfl]
    simp only [List.length_append, List.length_map]
    rw [range_map_add]
    simp [List.append_assoc, List.map_map]

/-! Phase-evolution algebra: `PhaseFacts` composes across the prologue's
phases and is preserved by each primitive state operation. -/

theorem phaseFacts_refl (s : SGState) (hwf : s.wf) : PhaseFacts 0 s s :=
  ⟨hwf, le_refl _, ⟨[], by simp⟩, ⟨[], by simp⟩, ⟨[], by simp⟩, ⟨[], by simp⟩⟩

theorem phaseFacts_trans (k1 k2 : Nat) (s1 s2 s3 : SGState)
    (h1 : PhaseFacts k1 s1 s2) (h2 : PhaseFacts k2 s2 s3) :
    PhaseFacts (k1 + k2) s1 s3 := by
  obtain ⟨hwf2, hnc1, ⟨r1, hr1, hr1l⟩, ⟨n1, hn1, hn1f⟩, ⟨t1, ht1, ht1a, ht1e⟩, v1, hv1⟩ := h1
  obtain ⟨hwf3, hnc2, ⟨r2, hr2, hr2l⟩, ⟨n2, hn2, hn2f⟩, ⟨t2, ht2, ht2a, ht2e⟩, v2, hv2⟩ := h2
  refine ⟨hwf3, le_trans hnc1 hnc2, ⟨r1 ++ r2, ?_, ?_⟩, ⟨n1 ++ n2, ?_, ?_⟩,
    ⟨t1 ++ t2, ?_, ?_, ?_⟩, ⟨v1 ++ v2, ?_⟩⟩
  · rw [hr2, hr1, List.append_assoc]
  · simp [hr1l, hr2l]
  · rw [hn2, hn1, List.append_assoc]
  · intro c hc
    rcases List.mem_append.mp hc with hc | hc
    · exact hn1f c hc
    · obtain ⟨hid, hbl⟩ := hn2f c hc
      refine ⟨le_trans hnc1 hid, isArgBelow_mono _ _ _ ?_ hbl⟩
      rw [hr1]
      simp
  · rw [ht2, ht1, List.append_assoc]
  · simp [List.countP_append, ht1a, ht2a]
  · simp [List.countP_append, ht1e, ht2e]
  · rw [hv2, hv1, List.append_assoc]

theorem phaseFacts_appendInstrs (k : Nat) (s s' : SGState) (tail : List Instr)
    (h : PhaseFacts k s s')
    (ha : tail.countP Instr.isNewArgEvent = 0)
    (he : tail.countP Instr.isErrorMarker = 0) :
    PhaseFacts k s { s' with instrs := s'.instrs ++ tail } := by
  obtain ⟨hwf, hnc, hea, hcl, ⟨t1, ht1, ht1a, ht1e⟩, hvl⟩ := h
  refine ⟨hwf, hnc, hea, hcl, ⟨t1 ++ tail, ?_, ?_, ?_⟩, hvl⟩
  · simp only
    rw [ht1, List.append_assoc]
  · simp [List.countP_append, ht1a, ha]
  · simp [List.countP_append, ht1e, he]

theorem phaseFacts_setVarLoc (k : Nat) (s s' : SGState) (vid : Nat) (vl : VarLoc)
    (h : PhaseFacts k s s') : PhaseFacts k s (setVarLoc vid vl s') := by
  obtain ⟨hwf, hnc, hea, hcl, hin, v1, hv1⟩ := h
  exact ⟨hwf, hnc, hea, hcl, hin,
    ⟨v1 ++ [(vid, vl)], by simp [setVarLoc, hv1]⟩⟩

theorem phaseFacts_debugValue (k : Nat) (s s' : SGState) (v : SILValue)
    (argNo : Nat) (h : PhaseFacts k s s') :
    PhaseFacts k s (emitDebugValue v argNo s') :=
  phaseFacts_appendInstrs k s s' [.debugValue v argNo] h
    (by simp [List.countP_cons, Instr.isNewArgEvent])
    (by simp [List.countP_cons, Instr.isErrorMarker])

theorem phaseFacts_pushCleanup (k : Nat) (s s' : SGState) (v : SILValue)
    (h : PhaseFacts k s s') (hv : v.isArgBelow s.entryArgs.length = false) :
    PhaseFacts k s (pushCleanup v s').2 := by
  obtain ⟨⟨hwb, hnd⟩, hnc, hea, ⟨n1, hn1, hn1f⟩, hin, hvl⟩ := h
  have hpush := wf_push_cons s'.cleanups s'.nextCleanup v hwb hnd
  refine ⟨⟨hpush.1, hpush.2⟩, by simp [pushCleanup]; omega,
    hea, ⟨n1 ++ [⟨s'.nextCleanup, v, true⟩], ?_, ?_⟩, hin, hvl⟩
  · simp [pushCleanup, hn1]
  · intro c hc
    rcases List.mem_append.mp hc with hc | hc
    · exact hn1f c hc
    · rw [List.mem_singleton.mp hc]
      exact ⟨hnc, hv⟩

theorem phaseFacts_createArg (k : Nat) (s s' : SGState) (ty : Ty)
    (decl : Option Nat) (h : PhaseFacts k s s') :
    PhaseFacts (k + 1) s (createFunctionArgument ty decl s').2 := by
  obtain ⟨hwf, hnc, ⟨r1, hr1, hr1l⟩, hcl, ⟨t1, ht1, ht1a, ht1e⟩, hvl⟩ := h
  refine ⟨hwf, hnc, ⟨r1 ++ [⟨ty, decl⟩], ?_, ?_⟩, hcl,
    ⟨t1 ++ [.newArg ty decl], ?_, ?_, ?_⟩, hvl⟩
  · simp [createFunctionArgument, hr1]
  · simp [hr1l]
  · simp [createFunctionArgument, ht1]
  · simp [List.countP_append, ht1a, List.countP_cons, Instr.isNewArgEvent]
  · simp [List.countP_append, ht1e, List.countP_cons, Instr.isErrorMarker]

theorem phaseFacts_tempAlloc (k : Nat) (s s' : SGState)
    (h : PhaseFacts k s s') : PhaseFacts k s (emitTemporaryAllocation s').2 := by
  obtain ⟨hwf, hnc, hea, hcl, ⟨t1, ht1, ht1a, ht1e⟩, hvl⟩ := h
  refine ⟨hwf, hnc, hea, hcl, ⟨t1 ++ [.allocStack s'.nextTemp], ?_, ?_, ?_⟩, hvl⟩
  · simp [emitTemporaryAllocation, ht1]
  · simp [List.countP_append, ht1a, List.countP_cons, Instr.isNewArgEvent]
  · simp [List.countP_append, ht1e, List.countP_cons, Instr.isErrorMarker]

/-- One destructuring pass is one phase: it consumes the leaves' descriptors
and creates one argument per leaf. -/
theorem visit_phase (cfg : SGConfig) (fa : Bool) (decl : Option Nat) (t : Ty)
    (ps ps' : List SILParameterInfo) (s s' : SGState) (mv : ManagedValue)
    (h : visit cfg fa decl t ps s = some (mv, ps', s')) (hwf : s.wf) :
    ps' = ps.drop t.leaves.length ∧ PhaseFacts t.leaves.length s s' := by
  obtain ⟨hb, hc⟩ := (visit_facts cfg fa decl).1 t ps s mv ps' s' h hwf
  obtain ⟨hps, hlen, hea, hvl, hclassified, hnc, tail, htail, hta, hte⟩ := hb
  obtain ⟨⟨news, hnews, hnewsf⟩, hnc2, hwf2, _, _⟩ := hc
  exact ⟨hps, hwf2, hnc,
    ⟨t.leaves.map (fun i => ⟨Ty.scalar i, decl⟩), hea, by simp⟩,
    ⟨news, hnews, fun c hc2 => ⟨(hnewsf c hc2).1, (hnewsf c hc2).2.2⟩⟩,
    ⟨tail, htail, hta, hte⟩, ⟨[], by simp [hvl]⟩⟩

/-- Closing a scope at the recorded depth: the cleanup stack is restored to
exactly its old prefix, the active scoped cleanups fire in reverse order,
and well-formedness is preserved. -/
theorem popScope_restore (s2 : SGState) (pre news : List CleanupRec)
    (h : s2.cleanups = pre ++ news) (hwf : s2.wf) :
    popScope pre.length s2 =
      { s2 with cleanups := pre,
                instrs := s2.instrs ++
                  (news.reverse.filter (fun c => c.active)).map
                    (fun c => Instr.destroyValue c.value) } ∧
    (popScope pre.length s2).wf := by
  have heq : popScope pre.length s2 =
      { s2 with cleanups := pre,
                instrs := s2.instrs ++
                  (news.reverse.filter (fun c => c.active)).map
                    (fun c => Instr.destroyValue c.value) } := by
    rw [popScope, h]
    simp [List.take_left, List.drop_left]
  refine ⟨heq, ?_⟩
  rw [heq]
  obtain ⟨hwb, hnd⟩ := hwf
  constructor
  · intro c hc
    exact hwb c (by rw [h]; exact List.mem_append_left _ hc)
  · rw [h, List.map_append] at hnd
    exact hnd.of_append_left

/-- Destroy-instruction lists contain no argument events or error markers. -/
theorem destroys_counts (l : List CleanupRec) :
    ((l.map (fun c => Instr.destroyValue c.value)).countP Instr.isNewArgEvent = 0) ∧
    ((l.map (fun c => Instr.destroyValue c.value)).countP Instr.isErrorMarker = 0) := by
  induction l with
  | nil => simp
  | cons c cs ih =>
    simp [List.countP_cons, Instr.isNewArgEvent, Instr.isErrorMarker, ih.1, ih.2]

/-- Exact effect of one discard-scoped materialization: the descriptors of
the type's leaves are consumed, one argument per leaf is created, and the
scope close restores the cleanup stack exactly, leaving the variable table
untouched. -/
theorem anonymousCore_phase (cfg : SGConfig) (pdDebug : Option ParamDecl)
    (locDecl : Option Nat) (argNo : Nat) (t : Ty)
    (ps ps1 : List SILParameterInfo) (s s1 : SGState) (hwf : s.wf)
    (h : anonymousCore cfg pdDebug locDecl argNo t ps s = some (ps1, s1)) :
    ps1 = ps.drop t.leaves.length ∧
    s1.cleanups = s.cleanups ∧ s1.varLocs = s.varLocs ∧ s1.wf ∧
    s.nextCleanup ≤ s1.nextCleanup ∧
    s1.entryArgs = s.entryArgs ++
      t.leaves.map (fun i => (⟨Ty.scalar i, locDecl⟩ : EntryArg)) ∧
    ∃ tail, s1.instrs = s.instrs ++ tail ∧
      tail.countP Instr.isNewArgEvent = t.leaves.length ∧
      tail.countP Instr.isErrorMarker = 0 := by
  unfold anonymousCore at h
  cases hv : visit cfg true locDecl t ps s with
  | none => rw [hv] at h; exact Option.noConfusion h
  | some r =>
    obtain ⟨argrv, psv, sv⟩ := r
    rw [hv] at h
    obtain ⟨hb, hcf⟩ := (visit_facts cfg true locDecl).1 t ps s argrv psv sv hv hwf
    obtain ⟨hps, hlen, hea, hvl, hcls, hncv, tail, htail, hta, hte⟩ := hb
    obtain ⟨⟨news, hnews, hnewsf⟩, hnc2, hwfv, _, _⟩ := hcf
    cases pdDebug with
    | none =>
      simp only [Option.some.injEq, Prod.mk.injEq] at h
      obtain ⟨hps1, hs1⟩ := h
      obtain ⟨hpop, hpopwf⟩ := popScope_restore sv s.cleanups news hnews hwfv
      rw [hpop] at hs1 hpopwf
      subst hps1
      subst hs1
      refine ⟨hps, by simp, hvl, hpopwf, hncv, hea,
        ⟨tail ++ (news.reverse.filter (fun c => c.active)).map
            (fun c => Instr.destroyValue c.value), ?_, ?_, ?_⟩⟩
      · simp only
        rw [htail, List.append_assoc]
      · simp [List.countP_append, hta, (destroys_counts _).1]
      · simp [List.countP_append, hte, (destroys_counts _).2]
    | some pd =>
      simp only [Option.some.injEq, Prod.mk.injEq] at h
      obtain ⟨hps1, hs1⟩ := h
      have hnews2 : (emitDebugValue argrv.value argNo sv).cleanups =
          s.cleanups ++ news := hnews
      have hwfv2 : (emitDebugValue argrv.value argNo sv).wf := hwfv
      obtain ⟨hpop, hpopwf⟩ :=
        popScope_restore (emitDebugValue argrv.value argNo sv) s.cleanups news
          hnews2 hwfv2
      rw [hpop] at hs1 hpopwf
      subst hps1
      subst hs1
      refine ⟨hps, by simp, hvl, hpopwf, hncv, hea,
        ⟨(tail ++ [.debugValue argrv.value argNo]) ++
            (news.reverse.filter (fun c => c.active)).map
              (fun c => Instr.destroyValue c.value), ?_, ?_, ?_⟩⟩
      · simp only [emitDebugValue]
        rw [htail]
        simp [List.append_assoc]
      · simp [List.countP_append, hta, (destroys_counts _).1, List.countP_cons,
          Instr.isNewArgEvent]
      · simp [List.countP_append, hte, (destroys_counts _).2, List.countP_cons,
          Instr.isErrorMarker]

/-- One discard-scoped materialization is one phase. -/
theorem anonymousCore_phaseFacts (cfg : SGConfig) (pdDebug : Option ParamDecl)
    (locDecl : Option Nat) (argNo : Nat) (t : Ty)
    (ps ps1 : List SILParameterInfo) (s s1 : SGState) (hwf : s.wf)
    (h : anonymousCore cfg pdDebug locDecl argNo t ps s = some (ps1, s1)) :
    ps1 = ps.drop t.leaves.length ∧ PhaseFacts t.leaves.length s s1 := by
  obtain ⟨hps, hcl, hvl, hwf1, hnc, hea, tail, htail, hta, hte⟩ :=
    anonymousCore_phase cfg pdDebug locDecl argNo t ps ps1 s s1 hwf h
  exact ⟨hps, hwf1, hnc, ⟨_, hea, by simp⟩, ⟨[], by simp [hcl], by simp⟩,
    ⟨tail, htail, hta, hte⟩, ⟨[], by simp [hvl]⟩⟩

/-- Discarding a concatenation of pieces is discarding the first part and
then the rest. -/
theorem anonFold_append (cfg : SGConfig) (locDecl : Option Nat) (argNo : Nat)
    (l1 l2 : List Ty) : ∀ (ps : List SILParameterInfo) (s : SGState),
    anonFold cfg locDecl argNo (l1 ++ l2) ps s =
      match anonFold cfg locDecl argNo l1 ps s with
      | none => none
      | some (ps1, s1) => anonFold cfg locDecl argNo l2 ps1 s1 := by
  induction l1 with
  | nil => intro ps s; rfl
  | cons t ts ih =>
    intro ps s
    rw [List.cons_append]
    simp only [anonFold]
    cases hc : anonymousCore cfg none locDecl argNo t ps s with
    | none => rfl
    | some r =>
      obtain ⟨ps1, s1⟩ := r
      exact ih ps1 s1

/-- An unnamed parameter with no surviving binding lowers exactly as the
sequential discarding of its split pieces, proved by mutual induction over
the type tree. -/
theorem emitAnonymousParam_split (cfg : SGConfig) :
    (∀ (pdDebug : Option ParamDecl) (locDecl : Option Nat) (argNo : Nat)
        (t : Ty) (ps : List SILParameterInfo) (s : SGState),
      emitAnonymousParam cfg none locDecl argNo t ps s =
        anonFold cfg locDecl argNo (splitLeaves t) ps s) ∧
    (∀ (locDecl : Option Nat) (argNo : Nat) (ts : List Ty)
        (ps : List SILParameterInfo) (s : SGState),
      emitAnonymousParamList cfg locDecl argNo ts ps s =
        anonFold cfg locDecl argNo (splitLeavesList ts) ps s) := by
  refine emitAnonymousParam.mutual_induct cfg
    (fun pdDebug locDecl argNo t ps s =>
      emitAnonymousParam cfg none locDecl argNo t ps s =
        anonFold cfg locDecl argNo (splitLeaves t) ps s)
    (fun locDecl argNo ts ps s =>
      emitAnonymousParamList cfg locDecl argNo ts ps s =
        anonFold cfg locDecl argNo (splitLeavesList ts) ps s)
    ?_ ?_ ?_ ?_ ?_ ?_
  · intro pdDebug locDecl argNo elts ps s hmat ih
    simp only [emitAnonymousParam, splitLeaves, if_pos hmat]
    exact ih
  · intro pdDebug locDecl argNo elts ps s hmat
    simp only [emitAnonymousParam, splitLeaves, if_neg hmat, anonFold]
    cases hc : anonymousCore cfg none locDecl argNo (Ty.tuple elts) ps s with
    | none => rfl
    | some r =>
      obtain ⟨ps1, s1⟩ := r
      rfl
  · intro pdDebug locDecl argNo info ps s
    simp only [emitAnonymousParam, splitLeaves, anonFold]
    cases hc : anonymousCore cfg none locDecl argNo (Ty.scalar info) ps s with
    | none => rfl
    | some r =>
      obtain ⟨ps1, s1⟩ := r
      rfl
  · intro locDecl argNo ps s
    simp [emitAnonymousParamList, splitLeavesList, anonFold]
  · intro locDecl argNo t ts ps s heq ih
    rw [show splitLeavesList (t :: ts) = splitLeaves t ++ splitLeavesList ts
      from by simp [splitLeavesList]]
    rw [anonFold_append]
    rw [← ih, heq]
    simp only [emitAnonymousParamList, heq]
  · intro locDecl argNo t ts ps s ps1 s1 heq ih1 ih2
    rw [show splitLeavesList (t :: ts) = splitLeaves t ++ splitLeavesList ts
      from by simp [splitLeavesList]]
    rw [anonFold_append]
    rw [← ih1, heq]
    simp only [emitAnonymousParamList, heq]
    exact ih2

/-- Phase facts of unnamed-parameter lowering, by mutual induction over the
type tree: the leaves' descriptors are consumed and one argument per leaf
is created. -/
theorem emitAnonymousParam_facts (cfg : SGConfig) :
    (∀ (pdDebug : Option ParamDecl) (locDecl : Option Nat) (argNo : Nat)
        (t : Ty) (ps : List SILParameterInfo) (s : SGState)
        (ps1 : List SILParameterInfo) (s1 : SGState),
      emitAnonymousParam cfg pdDebug locDecl argNo t ps s = some (ps1, s1) →
      s.wf → ps1 = ps.drop t.leaves.length ∧ PhaseFacts t.leaves.length s s1) ∧
    (∀ (locDecl : Option Nat) (argNo : Nat) (ts : List Ty)
        (ps : List SILParameterInfo) (s : SGState)
        (ps1 : List SILParameterInfo) (s1 : SGState),
      emitAnonymousParamList cfg locDecl argNo ts ps s = some (ps1, s1) →
      s.wf → ps1 = ps.drop (Ty.leavesList ts).length ∧
        PhaseFacts (Ty.leavesList ts).length s s1) := by
  refine emitAnonymousParam.mutual_induct cfg
    (fun pdDebug locDecl argNo t ps s => ∀ ps1 s1,
      emitAnonymousParam cfg pdDebug locDecl argNo t ps s = some (ps1, s1) →
      s.wf → ps1 = ps.drop t.leaves.length ∧ PhaseFacts t.leaves.length s s1)
    (fun locDecl argNo ts ps s => ∀ ps1 s1,
      emitAnonymousParamList cfg locDecl argNo ts ps s = some (ps1, s1) →
      s.wf → ps1 = ps.drop (Ty.leavesList ts).length ∧
        PhaseFacts (Ty.leavesList ts).length s s1)
    ?_ ?_ ?_ ?_ ?_ ?_
  · intro pdDebug locDecl argNo elts ps s hmat ih ps1 s1 h hwf
    rw [show (Ty.tuple elts).leaves = Ty.leavesList elts from by simp [Ty.leaves]]
    simp only [emitAnonymousParam, if_pos hmat] at h
    exact ih ps1 s1 h hwf
  · intro pdDebug locDecl argNo elts ps s hmat ps1 s1 h hwf
    simp only [emitAnonymousParam, if_neg hmat] at h
    exact anonymousCore_phaseFacts cfg pdDebug locDecl argNo (Ty.tuple elts)
      ps ps1 s s1 hwf h
  · intro pdDebug locDecl argNo info ps s ps1 s1 h hwf
    simp only [emitAnonymousParam] at h
    exact anonymousCore_phaseFacts cfg pdDebug locDecl argNo (Ty.scalar info)
      ps ps1 s s1 hwf h
  · intro locDecl argNo ps s ps1 s1 h hwf
    simp only [emitAnonymousParamList, Option.some.injEq, Prod.mk.injEq] at h
    obtain ⟨h1, h2⟩ := h
    subst h1
    subst h2
    exact ⟨by simp [Ty.leavesList], phaseFacts_refl s hwf⟩
  · intro locDecl argNo t ts ps s heq ih ps1 s1 h hwf
    simp only [emitAnonymousParamList, heq] at h
    exact Option.noConfusion h
  · intro locDecl argNo t ts ps s psm sm heq ih1 ih2 ps1 s1 h hwf
    simp only [emitAnonymousParamList, heq] at h
    obtain ⟨hdrop1, hpf1⟩ := ih1 psm sm heq hwf
    obtain ⟨hdrop2, hpf2⟩ := ih2 ps1 s1 h hpf1.1
    rw [show Ty.leavesList (t :: ts) = t.leaves ++ Ty.leavesList ts
      from by simp [Ty.leavesList]]
    constructor
    · rw [hdrop2, hdrop1, List.drop_drop]
      simp [List.length_append, Nat.add_comm]
    · rw [List.length_append]
      exact phaseFacts_trans _ _ _ _ _ hpf1 hpf2

/-- Phase facts of named-parameter binding: the declared type's leaf
descriptors are consumed and one argument per leaf is created. -/
theorem makeArgumentIntoBinding_phase (cfg : SGConfig) (pd : ParamDecl)
    (argNo : Nat) (ps ps1 : List SILParameterInfo) (s s1 : SGState)
    (hwf : s.wf)
    (h : makeArgumentIntoBinding cfg pd argNo ps s = some (ps1, s1)) :
    ps1 = ps.drop pd.ty.leaves.length ∧ PhaseFacts pd.ty.leaves.length s s1 := by
  unfold makeArgumentIntoBinding at h
  cases hv : visit cfg true (some pd.id) pd.ty ps s with
  | none => simp only [hv] at h; exact Option.noConfusion h
  | some r =>
    obtain ⟨argrv, psv, sv⟩ := r
    obtain ⟨hps, hpf⟩ :=
      visit_phase cfg true (some pd.id) pd.ty ps psv s sv argrv hv hwf
    by_cases hio : (pd.isInOut && pd.ty.isBuiltinValueBuffer) = true
    · simp only [hv, if_pos hio, Option.some.injEq, Prod.mk.injEq] at h
      obtain ⟨h1, h2⟩ := h
      subst h1
      subst h2
      exact ⟨hps, phaseFacts_debugValue _ _ _ _ _
        (phaseFacts_setVarLoc _ _ _ _ _ hpf)⟩
    · by_cases hbc : (!pd.isInOut && pd.ty.needsSelfBitcast) = true
      · simp only [hv, if_neg hio, if_pos hbc, Option.some.injEq,
          Prod.mk.injEq] at h
        obtain ⟨h1, h2⟩ := h
        subst h1
        subst h2
        refine ⟨hps, phaseFacts_debugValue _ _ _ _ _
          (phaseFacts_setVarLoc _ _ _ _ _
            (phaseFacts_appendInstrs _ _ _ _ hpf ?_ ?_))⟩
        · simp [List.countP_cons, Instr.isNewArgEvent]
        · simp [List.countP_cons, Instr.isErrorMarker]
      · simp only [hv, if_neg hio, if_neg hbc, Option.some.injEq,
          Prod.mk.injEq] at h
        obtain ⟨h1, h2⟩ := h
        subst h1
        subst h2
        exact ⟨hps, phaseFacts_debugValue _ _ _ _ _
          (phaseFacts_setVarLoc _ _ _ _ _ hpf)⟩

/-- Phase facts of the per-parameter driver: the ordinal advances by one,
and the declared type's leaves are consumed and materialized. -/
theorem emitParam_phase (cfg : SGConfig) (pd : ParamDecl) (argNo : Nat)
    (ps : List SILParameterInfo) (s : SGState) (n1 : Nat)
    (ps1 : List SILParameterInfo) (s1 : SGState) (hwf : s.wf)
    (h : emitParam cfg pd argNo ps s = some (n1, ps1, s1)) :
    n1 = argNo + 1 ∧ ps1 = ps.drop pd.ty.leaves.length ∧
    PhaseFacts pd.ty.leaves.length s s1 := by
  unfold emitParam at h
  by_cases hn : pd.hasName = true
  · cases hm : makeArgumentIntoBinding cfg pd (argNo + 1) ps s with
    | none => simp only [if_pos hn, hm] at h; exact Option.noConfusion h
    | some r =>
      obtain ⟨ps2, s2⟩ := r
      simp only [if_pos hn, hm, Option.some.injEq, Prod.mk.injEq] at h
      obtain ⟨h1, h2, h3⟩ := h
      subst h1
      subst h2
      subst h3
      obtain ⟨ha, hb⟩ :=
        makeArgumentIntoBinding_phase cfg pd (argNo + 1) ps ps2 s s2 hwf hm
      exact ⟨rfl, ha, hb⟩
  · cases hm : emitAnonymousParam cfg (some pd) (some pd.id) (argNo + 1)
        pd.ty ps s with
    | none => simp only [if_neg hn, hm] at h; exact Option.noConfusion h
    | some r =>
      obtain ⟨ps2, s2⟩ := r
      simp only [if_neg hn, hm, Option.some.injEq, Prod.mk.injEq] at h
      obtain ⟨h1, h2, h3⟩ := h
      subst h1
      subst h2
      subst h3
      obtain ⟨ha, hb⟩ := (emitAnonymousParam_facts cfg).1 (some pd) (some pd.id)
        (argNo + 1) pd.ty ps s ps2 s2 hm hwf
      exact ⟨rfl, ha, hb⟩

/-- Phase facts of one declared parameter list: the ordinal advances by the
number of declared parameters, the descriptors of all their leaves are
consumed, and one argument per leaf is created. -/
theorem emitParams_phase (cfg : SGConfig) (pds : List ParamDecl) :
    ∀ (argNo : Nat) (ps : List SILParameterInfo) (s : SGState) (n1 : Nat)
      (ps1 : List SILParameterInfo) (s1 : SGState), s.wf →
    emitParams cfg pds argNo ps s = some (n1, ps1, s1) →
    n1 = argNo + pds.length ∧ ps1 = ps.drop (paramsLeafCount pds) ∧
    PhaseFacts (paramsLeafCount pds) s s1 := by
  induction pds with
  | nil =>
    intro argNo ps s n1 ps1 s1 hwf h
    simp only [emitParams, Option.some.injEq, Prod.mk.injEq] at h
    obtain ⟨h1, h2, h3⟩ := h
    subst h1
    subst h2
    subst h3
    exact ⟨by simp, by simp [paramsLeafCount], phaseFacts_refl s hwf⟩
  | cons pd pds ih =>
    intro argNo ps s n1 ps1 s1 hwf h
    cases hp : emitParam cfg pd argNo ps s with
    | none => simp only [emitParams, hp] at h; exact Option.noConfusion h
    | some r =>
      obtain ⟨n2, ps2, s2⟩ := r
      simp only [emitParams, hp] at h
      obtain ⟨hn2, hps2, hpf1⟩ := emitParam_phase cfg pd argNo ps s n2 ps2 s2 hwf hp
      obtain ⟨hn1, hps1, hpf2⟩ := ih n2 ps2 s2 n1 ps1 s1 hpf1.1 h
      refine ⟨?_, ?_, ?_⟩
      · rw [hn1, hn2, List.length_cons]
        omega
      · rw [hps1, hps2, List.drop_drop]
        simp only [paramsLeafCount]
      · simp only [paramsLeafCount]
        exact phaseFacts_trans _ _ _ _ _ hpf1 hpf2

theorem paramListsCount_append (l1 l2 : List (List ParamDecl)) :
    paramListsCount (l1 ++ l2) = paramListsCount l1 + paramListsCount l2 := by
  induction l1 with
  | nil => simp [paramListsCount]
  | cons l ls ih => simp [paramListsCount, ih]; omega

theorem paramListsCount_reverse (l : List (List ParamDecl)) :
    paramListsCount l.reverse = paramListsCount l := by
  induction l with
  | nil => rfl
  | cons x xs ih =>
    simp only [List.reverse_cons, paramListsCount_append, paramListsCount, ih]
    omega

theorem paramListsLeafCount_append (l1 l2 : List (List ParamDecl)) :
    paramListsLeafCount (l1 ++ l2) =
      paramListsLeafCount l1 + paramListsLeafCount l2 := by
  induction l1 with
  | nil => simp [paramListsLeafCount]
  | cons l ls ih => simp [paramListsLeafCount, ih]; omega

theorem paramListsLeafCount_reverse (l : List (List ParamDecl)) :
    paramListsLeafCount l.reverse = paramListsLeafCount l := by
  induction l with
  | nil => rfl
  | cons x xs ih =>
    simp only [List.reverse_cons, paramListsLeafCount_append,
      paramListsLeafCount, ih]
    omega

/-- Phase facts of the fold over the (already reversed) parameter lists. -/
theorem emitParamLists_go_phase (cfg : SGConfig) (lss : List (List ParamDecl)) :
    ∀ (argNo : Nat) (ps : List SILParameterInfo) (s : SGState) (n1 : Nat)
      (ps1 : List SILParameterInfo) (s1 : SGState), s.wf →
    emitParamLists.go cfg lss argNo ps s = some (n1, ps1, s1) →
    n1 = argNo + paramListsCount lss ∧
    ps1 = ps.drop (paramListsLeafCount lss) ∧
    PhaseFacts (paramListsLeafCount lss) s s1 := by
  induction lss with
  | nil =>
    intro argNo ps s n1 ps1 s1 hwf h
    simp only [emitParamLists.go, Option.some.injEq, Prod.mk.injEq] at h
    obtain ⟨h1, h2, h3⟩ := h
    subst h1
    subst h2
    subst h3
    exact ⟨by simp [paramListsCount], by simp [paramListsLeafCount],
      phaseFacts_refl s hwf⟩
  | cons l ls ih =>
    intro argNo ps s n1 ps1 s1 hwf h
    cases hp : emitParams cfg l argNo ps s with
    | none => simp only [emitParamLists.go, hp] at h; exact Option.noConfusion h
    | some r =>
      obtain ⟨n2, ps2, s2⟩ := r
      simp only [emitParamLists.go, hp] at h
      obtain ⟨hn2, hps2, hpf1⟩ :=
        emitParams_phase cfg l argNo ps s n2 ps2 s2 hwf hp
      obtain ⟨hn1, hps1, hpf2⟩ := ih n2 ps2 s2 n1 ps1 s1 hpf1.1 h
      refine ⟨?_, ?_, ?_⟩
      · rw [hn1, hn2]
        simp only [paramListsCount]
        omega
      · rw [hps1, hps2, List.drop_drop]
        simp only [paramListsLeafCount]
      · simp only [paramListsLeafCount]
        exact phaseFacts_trans _ _ _ _ _ hpf1 hpf2

/-- Phase facts of the parameter-list driver: the returned ordinal counts
the declared parameters, and all their leaves are consumed and created. -/
theorem emitParamLists_phase (cfg : SGConfig)
    (paramLists : List (List ParamDecl)) (argNo : Nat)
    (ps : List SILParameterInfo) (s : SGState) (n1 : Nat)
    (ps1 : List SILParameterInfo) (s1 : SGState) (hwf : s.wf)
    (h : emitParamLists cfg paramLists argNo ps s = some (n1, ps1, s1)) :
    n1 = argNo + paramListsCount paramLists ∧
    ps1 = ps.drop (paramListsLeafCount paramLists) ∧
    PhaseFacts (paramListsLeafCount paramLists) s s1 := by
  unfold emitParamLists at h
  obtain ⟨h1, h2, h3⟩ :=
    emitParamLists_go_phase cfg paramLists.reverse argNo ps s n1 ps1 s1 hwf h
  rw [paramListsCount_reverse] at h1
  rw [paramListsLeafCount_reverse] at h2 h3
  exact ⟨h1, h2, h3⟩

/-- Exact effect of indirect-result synthesis, by mutual induction over the
return type tree: one raw argument (and its materialization event) per
memory-returned leaf, in depth-first order, with every other component of
the state untouched. -/
theorem emitIndirectResultParameters_spec :
    (∀ (t : Ty) (s : SGState), emitIndirectResultParameters t s =
      { s with entryArgs := s.entryArgs ++ irArgList t,
               instrs := s.instrs ++
                 (irArgList t).map (fun e => Instr.newArg e.ty e.decl) }) ∧
    (∀ (ts : List Ty) (s : SGState), emitIndirectResultParametersList ts s =
      { s with entryArgs := s.entryArgs ++
                 ((Ty.leavesList ts).filter (fun i => i.returnedIndirectly)).map
                   (fun i => (⟨Ty.scalar i, none⟩ : EntryArg)),
               instrs := s.instrs ++
                 (((Ty.leavesList ts).filter (fun i => i.returnedIndirectly)).map
                   (fun i => (⟨Ty.scalar i, none⟩ : EntryArg))).map
                   (fun e => Instr.newArg e.ty e.decl) }) := by
  refine emitIndirectResultParameters.mutual_induct
    (fun t s => emitIndirectResultParameters t s =
      { s with entryArgs := s.entryArgs ++ irArgList t,
               instrs := s.instrs ++
                 (irArgList t).map (fun e => Instr.newArg e.ty e.decl) })
    (fun ts s => emitIndirectResultParametersList ts s =
      { s with entryArgs := s.entryArgs ++
                 ((Ty.leavesList ts).filter (fun i => i.returnedIndirectly)).map
                   (fun i => (⟨Ty.scalar i, none⟩ : EntryArg)),
               instrs := s.instrs ++
                 (((Ty.leavesList ts).filter (fun i => i.returnedIndirectly)).map
                   (fun i => (⟨Ty.scalar i, none⟩ : EntryArg))).map
                   (fun e => Instr.newArg e.ty e.decl) })
    ?_ ?_ ?_ ?_ ?_
  · intro elts s ih
    simp only [emitIndirectResultParameters]
    rw [ih]
    have hl : irArgList (Ty.tuple elts) =
        ((Ty.leavesList elts).filter (fun i => i.returnedIndirectly)).map
          (fun i => (⟨Ty.scalar i, none⟩ : EntryArg)) := by
      simp [irArgList, Ty.leaves]
    rw [hl]
  · intro info s hr
    simp only [emitIndirectResultParameters, if_pos hr]
    simp [createFunctionArgument, irArgList, Ty.leaves, hr]
  · intro info s hr
    simp only [emitIndirectResultParameters, if_neg hr]
    rw [Bool.not_eq_true] at hr
    simp [irArgList, Ty.leaves, hr]
  · intro s
    simp [emitIndirectResultParametersList, Ty.leavesList]
  · intro t ts s ih1 ih2
    simp only [emitIndirectResultParametersList]
    rw [ih2, ih1]
    rw [show Ty.leavesList (t :: ts) = t.leaves ++ Ty.leavesList ts
      from by simp [Ty.leavesList]]
    simp [irArgList, List.filter_append, List.map_append, List.append_assoc]

/-- Binding one non-dynamic-self capture is one phase: one entry-block
argument is created, and any cleanup registered covers the created
argument or a local cell, never an earlier entry-block argument. -/
theorem emitCaptureArguments_phase (cfg : SGConfig) (c : CapturedValue)
    (argNo : Nat) (s : SGState) (hwf : s.wf)
    (hk : c.kind ≠ CaptureKind.None) :
    PhaseFacts 1 s (emitCaptureArguments cfg c argNo s) := by
  have h0 : PhaseFacts 1 s (createFunctionArgument c.ty (some c.declId) s).2 :=
    phaseFacts_createArg 0 s s c.ty (some c.declId) (phaseFacts_refl s hwf)
  have hbelow : (SILValue.arg s.entryArgs.length).isArgBelow s.entryArgs.length
      = false := by simp [SILValue.isArgBelow]
  have htbelow : ∀ n : Nat, (SILValue.tempAlloc n).isArgBelow s.entryArgs.length
      = false := fun n => by simp [SILValue.isArgBelow]
  cases hck : c.kind with
  | None => exact absurd hck hk
  | StorageAddress =>
    simp only [emitCaptureArguments, hck, createFunctionArgument]
    exact phaseFacts_debugValue _ _ _ _ _ (phaseFacts_setVarLoc _ _ _ _ _ h0)
  | Box =>
    simp only [emitCaptureArguments, hck, createFunctionArgument]
    by_cases hg : (!cfg.enableGuaranteedClosureContexts) = true
    · simp only [if_pos hg]
      refine phaseFacts_pushCleanup _ _ _ _
        (phaseFacts_debugValue _ _ _ _ _
          (phaseFacts_setVarLoc _ _ _ _ _
            (phaseFacts_appendInstrs _ _ _ _ h0 ?_ ?_))) hbelow
      · simp [List.countP_cons, Instr.isNewArgEvent]
      · simp [List.countP_cons, Instr.isErrorMarker]
    · simp only [if_neg hg]
      refine phaseFacts_debugValue _ _ _ _ _
        (phaseFacts_setVarLoc _ _ _ _ _
          (phaseFacts_appendInstrs _ _ _ _ h0 ?_ ?_))
      · simp [List.countP_cons, Instr.isNewArgEvent]
      · simp [List.countP_cons, Instr.isErrorMarker]
  | Constant =>
    simp only [emitCaptureArguments, hck, createFunctionArgument,
      emitTemporaryAllocation]
    by_cases hs : c.settable = true
    · simp only [if_pos hs]
      by_cases hg : cfg.enableGuaranteedClosureContexts = true
      · simp only [if_pos hg, Bool.true_and]
        by_cases ht : (!c.ty.trivial) = true
        · simp only [if_pos ht]
          refine phaseFacts_pushCleanup _ _ _ _
            (phaseFacts_setVarLoc _ _ _ _ _
              (phaseFacts_appendInstrs _ _ _
                [.storeInstr (SILValue.copyValue
                    (SILValue.arg s.entryArgs.length))
                  (SILValue.tempAlloc s.nextTemp)]
                (phaseFacts_appendInstrs _ _ _
                  [.copyValueInstr (SILValue.arg s.entryArgs.length)]
                  (phaseFacts_tempAlloc _ _ _ h0) ?_ ?_) ?_ ?_))
            (htbelow s.nextTemp)
          · simp [List.countP_cons, Instr.isNewArgEvent]
          · simp [List.countP_cons, Instr.isErrorMarker]
          · simp [List.countP_cons, Instr.isNewArgEvent]
          · simp [List.countP_cons, Instr.isErrorMarker]
        · simp only [if_neg ht]
          refine phaseFacts_setVarLoc _ _ _ _ _
            (phaseFacts_appendInstrs _ _ _
              [.storeInstr (SILValue.copyValue
                  (SILValue.arg s.entryArgs.length))
                (SILValue.tempAlloc s.nextTemp)]
              (phaseFacts_appendInstrs _ _ _
                [.copyValueInstr (SILValue.arg s.entryArgs.length)]
                (phaseFacts_tempAlloc _ _ _ h0) ?_ ?_) ?_ ?_)
          · simp [List.countP_cons, Instr.isNewArgEvent]
          · simp [List.countP_cons, Instr.isErrorMarker]
          · simp [List.countP_cons, Instr.isNewArgEvent]
          · simp [List.countP_cons, Instr.isErrorMarker]
      · rw [Bool.not_eq_true] at hg
        simp only [hg, Bool.false_eq_true, if_false, Bool.not_false,
          Bool.true_and]
        by_cases ht : (!c.ty.trivial) = true
        · simp only [if_pos ht]
          refine phaseFacts_pushCleanup _ _ _ _
            (phaseFacts_setVarLoc _ _ _ _ _
              (phaseFacts_appendInstrs _ _ _
                [.storeInstr (SILValue.arg s.entryArgs.length)
                  (SILValue.tempAlloc s.nextTemp)]
                (phaseFacts_tempAlloc _ _ _ h0) ?_ ?_))
            (htbelow s.nextTemp)
          · simp [List.countP_cons, Instr.isNewArgEvent]
          · simp [List.countP_cons, Instr.isErrorMarker]
        · simp only [if_neg ht]
          refine phaseFacts_setVarLoc _ _ _ _ _
            (phaseFacts_appendInstrs _ _ _
              [.storeInstr (SILValue.arg s.entryArgs.length)
                (SILValue.tempAlloc s.nextTemp)]
              (phaseFacts_tempAlloc _ _ _ h0) ?_ ?_)
          · simp [List.countP_cons, Instr.isNewArgEvent]
          · simp [List.countP_cons, Instr.isErrorMarker]
    · simp only [if_neg hs]
      by_cases hd : ((!cfg.enableGuaranteedClosureContexts) && !c.ty.trivial)
          = true
      · simp only [if_pos hd]
        exact phaseFacts_pushCleanup _ _ _ _
          (phaseFacts_debugValue _ _ _ _ _
            (phaseFacts_setVarLoc _ _ _ _ _ h0)) hbelow
      · simp only [if_neg hd]
        exact phaseFacts_debugValue _ _ _ _ _
          (phaseFacts_setVarLoc _ _ _ _ _ h0)

/-- The capture loop over dynamic-self-free, real captures is a phase
creating one entry-block argument per capture. -/
theorem captureLoop_phase (cfg : SGConfig) (ci : CaptureInfo)
    (cs : List CapturedValue) : ∀ (argNo : Nat) (s : SGState), s.wf →
    (∀ c ∈ cs, c.isDynamicSelfMetadata = false ∧ c.kind ≠ CaptureKind.None) →
    PhaseFacts cs.length s (captureLoop cfg ci argNo cs s) := by
  induction cs with
  | nil =>
    intro argNo s hwf _
    simp only [captureLoop, List.length_nil]
    exact phaseFacts_refl s hwf
  | cons c rest ih =>
    intro argNo s hwf hall
    obtain ⟨hd, hk⟩ := hall c (List.mem_cons_self c rest)
    simp only [captureLoop, hd, Bool.false_eq_true, if_false]
    have h1 := emitCaptureArguments_phase cfg c (argNo + 1) s hwf hk
    have h2 := ih (argNo + 1) (emitCaptureArguments cfg c (argNo + 1) s) h1.1
      (fun c2 hc2 => hall c2 (List.mem_cons_of_mem c hc2))
    rw [show (c :: rest).length = 1 + rest.length from by
      simp [Nat.add_comm]]
    exact phaseFacts_trans _ _ _ _ _ h1 h2

/-- Mapped argument-materialization events: one per entry, no markers. -/
theorem newArgs_counts (l : List EntryArg) :
    ((l.map (fun e => Instr.newArg e.ty e.decl)).countP Instr.isNewArgEvent
      = l.length) ∧
    ((l.map (fun e => Instr.newArg e.ty e.decl)).countP Instr.isErrorMarker
      = 0) := by
  induction l with
  | nil => simp
  | cons e es ih =>
    simp [List.countP_cons, Instr.isNewArgEvent, Instr.isErrorMarker, ih.1, ih.2]

/-- C4: for each scalar leaf of the depth-first-expanded return type whose
representation is returned through memory, prologue emission synthesizes
exactly one hidden output-address entry-block argument; they are created
before any explicit parameter's argument, in the return type's depth-first
order, the synthesis leaves the cleanup stack untouched, and no cleanup
registered by the rest of the prologue covers a synthesized output
argument. -/
theorem C4_indirect_result_synthesis (cfg : SGConfig)
    (paramLists : List (List ParamDecl)) (resultType : Ty) (throws : Bool)
    (ps ps1 : List SILParameterInfo) (s s1 : SGState) (n : Nat) (hwf : s.wf)
    (h : emitProlog cfg paramLists resultType throws ps s = some (n, ps1, s1)) :
    emitIndirectResultParameters resultType s =
      { s with entryArgs := s.entryArgs ++ irArgList resultType,
               instrs := s.instrs ++
                 (irArgList resultType).map (fun e => Instr.newArg e.ty e.decl) } ∧
    (∃ rest, s1.entryArgs = s.entryArgs ++ irArgList resultType ++ rest) ∧
    (∃ news, s1.cleanups = s.cleanups ++ news ∧
      ∀ c ∈ news, c.value.isArgBelow
        (s.entryArgs.length + (irArgList resultType).length) = false) := by
  have hspec := emitIndirectResultParameters_spec.1 resultType s
  have hwfIR : (emitIndirectResultParameters resultType s).wf := by
    rw [hspec]; exact hwf
  have hlen : (emitIndirectResultParameters resultType s).entryArgs.length =
      s.entryArgs.length + (irArgList resultType).length := by
    rw [hspec]; simp
  have hcl : (emitIndirectResultParameters resultType s).cleanups =
      s.cleanups := by rw [hspec]
  refine ⟨hspec, ?_⟩
  unfold emitProlog at h
  cases hpl : emitParamLists cfg paramLists 0 ps
      (emitIndirectResultParameters resultType s) with
  | none => simp only [hpl] at h; exact Option.noConfusion h
  | some r =>
    obtain ⟨argNo, ps2, s2⟩ := r
    obtain ⟨hn, hps, hpf⟩ := emitParamLists_phase cfg paramLists 0 ps
      (emitIndirectResultParameters resultType s) argNo ps2 s2 hwfIR hpl
    obtain ⟨hwf2, hnc, ⟨restP, hrestP, hrestPl⟩, ⟨news, hnews, hnewsf⟩, _, _⟩ := hpf
    by_cases hth : throws = true
    · simp only [hpl, if_pos hth, Option.some.injEq, Prod.mk.injEq] at h
      obtain ⟨h1, h2, h3⟩ := h
      subst h3
      refine ⟨⟨restP, ?_⟩, ⟨news, ?_, ?_⟩⟩
      · show s2.entryArgs = s.entryArgs ++ irArgList resultType ++ restP
        rw [hrestP, hspec]
      · show s2.cleanups = s.cleanups ++ news
        rw [hnews, hcl]
      · intro c hc
        rw [← hlen]
        exact (hnewsf c hc).2
    · simp only [hpl, if_neg hth, Option.some.injEq, Prod.mk.injEq] at h
      obtain ⟨h1, h2, h3⟩ := h
      subst h3
      refine ⟨⟨restP, ?_⟩, ⟨news, ?_, ?_⟩⟩
      · rw [hrestP, hspec]
      · rw [hnews, hcl]
      · intro c hc
        rw [← hlen]
        exact (hnewsf c hc).2

/-- C4 witness: a function returning a single memory-returned scalar. -/
theorem C4_indirect_result_synthesis_witness :
    ∃ rest, (emitIndirectResultParameters
        (Ty.scalar { returnedIndirectly := true }) SGState.init).entryArgs =
      SGState.init.entryArgs ++
        irArgList (Ty.scalar { returnedIndirectly := true }) ++ rest :=
  (C4_indirect_result_synthesis ⟨true, false⟩ []
    (Ty.scalar { returnedIndirectly := true }) false [] [] SGState.init
    (emitIndirectResultParameters (Ty.scalar { returnedIndirectly := true })
      SGState.init)
    0 (by decide) rfl).2.1

/-- C7: a capture flagged as dynamic-self-type metadata stops capture
processing immediately: whatever follows it in the capture order is never
read or lowered, so the result does not depend on it. -/
theorem C7_dynamic_self_short_circuit (cfg : SGConfig) (ci : CaptureInfo)
    (argNo : Nat) (pre : List CapturedValue) (c : CapturedValue)
    (rest rest' : List CapturedValue) (s : SGState)
    (h : c.isDynamicSelfMetadata = true) :
    captureLoop cfg ci argNo (pre ++ c :: rest) s =
      captureLoop cfg ci argNo (pre ++ c :: rest') s := by
  induction pre generalizing argNo s with
  | nil => simp only [List.nil_append, captureLoop, if_pos h]
  | cons p pres ih =>
    simp only [List.cons_append, captureLoop]
    by_cases hp : p.isDynamicSelfMetadata = true
    · simp only [if_pos hp]
    · simp only [if_neg hp]
      exact ih _ _

/-- C7 witness: a dynamic-self capture followed by one more capture. -/
theorem C7_dynamic_self_short_circuit_witness :
    captureLoop ⟨true, false⟩ ⟨[], Ty.scalar {}⟩ 0
        ([] ++ (⟨3, CaptureKind.Constant, true, Ty.scalar {}, false⟩ :
            CapturedValue) ::
          [⟨4, CaptureKind.Box, false, Ty.scalar {}, false⟩]) SGState.init =
      captureLoop ⟨true, false⟩ ⟨[], Ty.scalar {}⟩ 0
        ([] ++ (⟨3, CaptureKind.Constant, true, Ty.scalar {}, false⟩ :
            CapturedValue) :: []) SGState.init :=
  C7_dynamic_self_short_circuit ⟨true, false⟩ ⟨[], Ty.scalar {}⟩ 0 []
    ⟨3, CaptureKind.Constant, true, Ty.scalar {}, false⟩
    [⟨4, CaptureKind.Box, false, Ty.scalar {}, false⟩] [] SGState.init rfl

/-- C10: taking the dynamic-self-metadata capture case creates exactly one
metatype entry-block argument, leaves the variable-location table
unchanged, and registers no cleanup. -/
theorem C10_dynamic_self_frame (cfg : SGConfig) (ci : CaptureInfo)
    (argNo : Nat) (c : CapturedValue) (rest : List CapturedValue)
    (s : SGState) (h : c.isDynamicSelfMetadata = true) :
    captureLoop cfg ci argNo (c :: rest) s =
      { s with entryArgs := s.entryArgs ++ [⟨ci.dynamicSelfTy, none⟩],
               instrs := s.instrs ++ [.newArg ci.dynamicSelfTy none] } ∧
    (captureLoop cfg ci argNo (c :: rest) s).varLocs = s.varLocs ∧
    (captureLoop cfg ci argNo (c :: rest) s).cleanups = s.cleanups := by
  have heq : captureLoop cfg ci argNo (c :: rest) s =
      { s with entryArgs := s.entryArgs ++ [⟨ci.dynamicSelfTy, none⟩],
               instrs := s.instrs ++ [.newArg ci.dynamicSelfTy none] } := by
    simp only [captureLoop, if_pos h, createFunctionArgument]
  exact ⟨heq, by rw [heq], by rw [heq]⟩

/-- C10 witness: one dynamic-self capture from the empty state. -/
theorem C10_dynamic_self_frame_witness :
    captureLoop ⟨true, false⟩ ⟨[], Ty.scalar {}⟩ 5
        [⟨3, CaptureKind.Constant, true, Ty.scalar {}, false⟩] SGState.init =
      { SGState.init with
        entryArgs := SGState.init.entryArgs ++ [⟨Ty.scalar {}, none⟩],
        instrs := SGState.init.instrs ++ [.newArg (Ty.scalar {}) none] } ∧
    (captureLoop ⟨true, false⟩ ⟨[], Ty.scalar {}⟩ 5
        [⟨3, CaptureKind.Constant, true, Ty.scalar {}, false⟩]
        SGState.init).varLocs = SGState.init.varLocs ∧
    (captureLoop ⟨true, false⟩ ⟨[], Ty.scalar {}⟩ 5
        [⟨3, CaptureKind.Constant, true, Ty.scalar {}, false⟩]
        SGState.init).cleanups = SGState.init.cleanups :=
  C10_dynamic_self_frame ⟨true, false⟩ ⟨[], Ty.scalar {}⟩ 5
    ⟨3, CaptureKind.Constant, true, Ty.scalar {}, false⟩ [] SGState.init rfl

/-- C8: an unnamed parameter of a non-materializable tuple type is
recursively split and lowered exactly as the sequential discarding of its
split pieces (any attached declaration is dropped, so it is never bound as
one whole-tuple value); and each discard-scoped piece still materializes
one entry-block argument per scalar leaf while restoring the cleanup stack
exactly and leaving the variable table untouched. -/
theorem C8_anonymous_parameter (cfg : SGConfig) (pdDebug : Option ParamDecl)
    (locDecl : Option Nat) (argNo : Nat) (elts : List Ty)
    (ps : List SILParameterInfo) (s : SGState)
    (hmat : (Ty.tuple elts).materializable = false) :
    emitAnonymousParam cfg pdDebug locDecl argNo (Ty.tuple elts) ps s =
      anonFold cfg locDecl argNo (splitLeavesList elts) ps s ∧
    (∀ (t : Ty) (ps' ps1 : List SILParameterInfo) (s' s1 : SGState),
      s'.wf → anonymousCore cfg none locDecl argNo t ps' s' = some (ps1, s1) →
      s1.cleanups = s'.cleanups ∧ s1.varLocs = s'.varLocs ∧
      s1.entryArgs = s'.entryArgs ++
        t.leaves.map (fun i => (⟨Ty.scalar i, locDecl⟩ : EntryArg))) := by
  constructor
  · have hcond : (!(Ty.tuple elts).materializable) = true := by
      rw [hmat]
      rfl
    rw [show emitAnonymousParam cfg pdDebug locDecl argNo (Ty.tuple elts) ps s
        = emitAnonymousParamList cfg locDecl argNo elts ps s from by
      simp only [emitAnonymousParam, if_pos hcond]]
    exact (emitAnonymousParam_split cfg).2 locDecl argNo elts ps s
  · intro t ps' ps1 s' s1 hwf h
    obtain ⟨_, h2, h3, _, _, h6, _⟩ :=
      anonymousCore_phase cfg none locDecl argNo t ps' ps1 s' s1 hwf h
    exact ⟨h2, h3, h6⟩

/-- C8 witness: an unnamed one-element non-materializable tuple. -/
theorem C8_anonymous_parameter_witness :
    emitAnonymousParam ⟨true, false⟩ none none 1
        (Ty.tuple [Ty.scalar { materializable := false }]) [] SGState.init =
      anonFold ⟨true, false⟩ none 1
        (splitLeavesList [Ty.scalar { materializable := false }]) []
        SGState.init :=
  (C8_anonymous_parameter ⟨true, false⟩ none none 1
    [Ty.scalar { materializable := false }] [] SGState.init rfl).1

/-- C6 counterexample: the claim's cleanup rule is wrong in both
directions.  With guaranteed-context mode off, a trivially-typed by-value
capture gets no release cleanup (first conjunct); with guaranteed-context
mode on, a settable non-trivial by-value capture does get a cleanup for
its defensive copy (second conjunct). -/
theorem C6_by_value_capture_counterexample :
    (emitCaptureArguments ⟨true, false⟩
        ⟨7, CaptureKind.Constant, false, Ty.scalar { trivial := true }, false⟩
        1 SGState.init).cleanups = [] ∧
    (emitCaptureArguments ⟨true, true⟩
        ⟨7, CaptureKind.Constant, false, Ty.scalar {}, true⟩
        1 SGState.init).cleanups.length = 1 :=
  ⟨rfl, rfl⟩

/-- C6 (amended): for a by-value (`Constant`) capture, a settable binding
is bound to a fresh local cell's address and an unsettable one directly to
the incoming value; a cleanup is registered iff the capture's type is
non-trivial and (the module is not in guaranteed-context mode or the
binding is settable — a settable capture in guaranteed mode is defensively
copied into its cell and that copy is destroyed at exit). -/
theorem C6_by_value_capture_binding (cfg : SGConfig) (c : CapturedValue)
    (argNo : Nat) (s : SGState) (hk : c.kind = CaptureKind.Constant) :
    (c.settable = true →
      (emitCaptureArguments cfg c argNo s).varLocs =
        s.varLocs ++ [(c.declId, ⟨.tempAlloc s.nextTemp, none⟩)] ∧
      (c.ty.trivial = false →
        (emitCaptureArguments cfg c argNo s).cleanups =
          s.cleanups ++ [⟨s.nextCleanup, .tempAlloc s.nextTemp, true⟩]) ∧
      (c.ty.trivial = true →
        (emitCaptureArguments cfg c argNo s).cleanups = s.cleanups)) ∧
    (c.settable = false →
      (emitCaptureArguments cfg c argNo s).varLocs =
        s.varLocs ++ [(c.declId, ⟨.arg s.entryArgs.length, none⟩)] ∧
      (cfg.enableGuaranteedClosureContexts = false → c.ty.trivial = false →
        (emitCaptureArguments cfg c argNo s).cleanups =
          s.cleanups ++ [⟨s.nextCleanup, .arg s.entryArgs.length, true⟩]) ∧
      (cfg.enableGuaranteedClosureContexts = true ∨ c.ty.trivial = true →
        (emitCaptureArguments cfg c argNo s).cleanups = s.cleanups)) := by
  cases hs : c.settable <;>
    cases hg : cfg.enableGuaranteedClosureContexts <;>
      cases ht : c.ty.trivial <;>
        simp [emitCaptureArguments, hk, createFunctionArgument,
          emitTemporaryAllocation, setVarLoc, emitDebugValue,
          enterDestroyCleanup, pushCleanup, hs, hg, ht]

/-- C6 witness: a settable non-trivial by-value capture with
guaranteed-context mode off is bound to a fresh cell's address. -/
theorem C6_by_value_capture_binding_witness :
    (emitCaptureArguments ⟨true, false⟩
        ⟨7, CaptureKind.Constant, false, Ty.scalar {}, true⟩
        1 SGState.init).varLocs =
      SGState.init.varLocs ++
        [(7, ⟨.tempAlloc SGState.init.nextTemp, none⟩)] :=
  ((C6_by_value_capture_binding ⟨true, false⟩
    ⟨7, CaptureKind.Constant, false, Ty.scalar {}, true⟩
    1 SGState.init rfl).1 rfl).1

/-- C5 counterexample: for a throwing closure with no indirect results
(N = 0), no explicit parameters (M = 0) and one capture (K = 1), the
error-slot marker is emitted BEFORE the capture's argument (first position
of the trace, not trailing) and carries ordinal M + 1 = 1, not
M + K + 1 = 2: the capture is numbered after it with ordinal 2. -/
theorem C5_error_slot_counterexample :
    emitPrologClosure ⟨true, false⟩
        ⟨[⟨7, CaptureKind.StorageAddress, false, Ty.scalar {}, false⟩],
          Ty.scalar {}⟩
        [] (Ty.scalar {}) true [] SGState.init =
      some ([],
        { entryArgs := [⟨Ty.scalar {}, some 7⟩],
          cleanups := [], nextCleanup := 0, nextTemp := 0,
          instrs := [.debugErrorValue 1, .newArg (Ty.scalar {}) (some 7),
                     .debugValue (.arg 0) 2],
          varLocs := [(7, ⟨.arg 0, none⟩)], classified := [] }) := rfl

/-- C5 (amended): for a throwing closure prologue, the emitted trace is:
the phase before the marker (indirect-result and parameter
materializations, one event per memory-returned result leaf plus one per
declared-parameter leaf), then ONE error-slot marker that materializes no
argument and carries ordinal M + 1 (M the number of declared parameters,
captures excluded), then the capture phase with one argument per capture;
the entry-block argument count is N + (parameter leaves) + K. -/
theorem C5_error_slot_amended (cfg : SGConfig) (ci : CaptureInfo)
    (paramLists : List (List ParamDecl)) (resultType : Ty)
    (ps ps1 : List SILParameterInfo) (s s1 : SGState) (hwf : s.wf)
    (hcap : ∀ c ∈ ci.captures, c.isDynamicSelfMetadata = false ∧
      c.kind ≠ CaptureKind.None)
    (h : emitPrologClosure cfg ci paramLists resultType true ps s =
      some (ps1, s1)) :
    ∃ tailP tailC,
      s1.instrs = s.instrs ++ tailP ++
        [.debugErrorValue (paramListsCount paramLists + 1)] ++ tailC ∧
      tailP.countP Instr.isErrorMarker = 0 ∧
      tailC.countP Instr.isErrorMarker = 0 ∧
      tailP.countP Instr.isNewArgEvent =
        (irArgList resultType).length + paramListsLeafCount paramLists ∧
      tailC.countP Instr.isNewArgEvent = ci.captures.length ∧
      s1.entryArgs.length = s.entryArgs.length +
        (irArgList resultType).length + paramListsLeafCount paramLists +
        ci.captures.length := by
  have hspec := emitIndirectResultParameters_spec.1 resultType s
  have hwfIR : (emitIndirectResultParameters resultType s).wf := by
    rw [hspec]; exact hwf
  unfold emitPrologClosure at h
  cases hpro : emitProlog cfg paramLists resultType true ps s with
  | none => rw [hpro] at h; exact Option.noConfusion h
  | some r =>
    obtain ⟨argNo, ps2, s2⟩ := r
    rw [hpro] at h
    simp only [Option.some.injEq, Prod.mk.injEq] at h
    obtain ⟨hps1, hs1⟩ := h
    unfold emitProlog at hpro
    cases hpl : emitParamLists cfg paramLists 0 ps
        (emitIndirectResultParameters resultType s) with
    | none => simp only [hpl] at hpro; exact Option.noConfusion hpro
    | some r2 =>
      obtain ⟨argNo2, ps3, s3⟩ := r2
      simp only [hpl, eq_self_iff_true, ite_true, Option.some.injEq,
        Prod.mk.injEq] at hpro
      obtain ⟨hargNo, hps3, hs2⟩ := hpro
      obtain ⟨hn2, hps2d, hpf⟩ := emitParamLists_phase cfg paramLists 0 ps
        (emitIndirectResultParameters resultType s) argNo2 ps3 s3 hwfIR hpl
      obtain ⟨hwf3, _, ⟨restP, hrestP, hrestPl⟩, _,
        ⟨tailP2, htailP2, htP2a, htP2e⟩, _⟩ := hpf
      subst hs2
      subst hargNo
      have hwf2 : ({ s3 with instrs :=
          s3.instrs ++ [.debugErrorValue (argNo2 + 1)] } : SGState).wf := hwf3
      have hcpf := captureLoop_phase cfg ci ci.captures (argNo2 + 1)
        { s3 with instrs := s3.instrs ++ [.debugErrorValue (argNo2 + 1)] }
        hwf2 hcap
      obtain ⟨_, _, ⟨restC, hrestC, hrestCl⟩, _,
        ⟨tailC, htailC, htCa, htCe⟩, _⟩ := hcpf
      rw [hs1] at htailC hrestC
      refine ⟨(irArgList resultType).map (fun e => Instr.newArg e.ty e.decl)
        ++ tailP2, tailC, ?_, ?_, htCe, ?_, htCa, ?_⟩
      · rw [htailC, htailP2, hspec, hn2]
        simp [List.append_assoc]
      · rw [List.countP_append, htP2e, (newArgs_counts _).2]
      · rw [List.countP_append, htP2a, (newArgs_counts _).1]
      · have e1 : s1.entryArgs.length = s3.entryArgs.length + restC.length := by
          rw [hrestC]
          simp
        have e2 : s3.entryArgs.length = s.entryArgs.length +
            ((irArgList resultType).length + restP.length) := by
          rw [hrestP, hspec]
          simp
        omega

/-- C5 witness: the amended statement at the counterexample's input. -/
theorem C5_error_slot_amended_witness :
    ∃ tailP tailC,
      ({ entryArgs := [⟨Ty.scalar {}, some 7⟩],
         cleanups := [], nextCleanup := 0, nextTemp := 0,
         instrs := [.debugErrorValue 1, .newArg (Ty.scalar {}) (some 7),
                    .debugValue (.arg 0) 2],
         varLocs := [(7, ⟨.arg 0, none⟩)], classified := [] } : SGState).instrs =
        SGState.init.instrs ++ tailP ++
          [.debugErrorValue (paramListsCount [] + 1)] ++ tailC ∧
      tailP.countP Instr.isErrorMarker = 0 ∧
      tailC.countP Instr.isErrorMarker = 0 ∧
      tailP.countP Instr.isNewArgEvent =
        (irArgList (Ty.scalar {})).length + paramListsLeafCount [] ∧
      tailC.countP Instr.isNewArgEvent =
        ([⟨7, CaptureKind.StorageAddress, false, Ty.scalar {}, false⟩] :
          List CapturedValue).length ∧
      ({ entryArgs := [⟨Ty.scalar {}, some 7⟩],
         cleanups := [], nextCleanup := 0, nextTemp := 0,
         instrs := [.debugErrorValue 1, .newArg (Ty.scalar {}) (some 7),
                    .debugValue (.arg 0) 2],
         varLocs := [(7, ⟨.arg 0, none⟩)],
         classified := [] } : SGState).entryArgs.length =
        SGState.init.entryArgs.length + (irArgList (Ty.scalar {})).length +
          paramListsLeafCount [] +
          ([⟨7, CaptureKind.StorageAddress, false, Ty.scalar {}, false⟩] :
            List CapturedValue).length :=
  C5_error_slot_amended ⟨true, false⟩
    ⟨[⟨7, CaptureKind.StorageAddress, false, Ty.scalar {}, false⟩],
      Ty.scalar {}⟩
    [] (Ty.scalar {}) [] [] SGState.init
    { entryArgs := [⟨Ty.scalar {}, some 7⟩],
      cleanups := [], nextCleanup := 0, nextTemp := 0,
      instrs := [.debugErrorValue 1, .newArg (Ty.scalar {}) (some 7),
                 .debugValue (.arg 0) 2],
      varLocs := [(7, ⟨.arg 0, none⟩)], classified := [] }
    (by decide) (by decide) rfl

end SILGen
